import Mathlib

/-!
Verification of the dependency-graph core of the `rust-spreadsheet`
repository: a shallow embedding of `calc`, the range aggregates, `topo_sort`
and `cell_update` (from `src/main.rs`, `src/utils/operations.rs` and
`src/utils/toposort.rs`), together with theorems settling the specification
claims about them.

Conventions of the embedding:
* storage arrays (`database`, `err`, `opers`, `sensi`, `indegree`) are Lean
  lists indexed by the 1-based linear cell index, with `getD`/`set` standing
  for the Rust slice reads and writes (a Rust out-of-bounds panic corresponds
  to reading the default / a no-op write; the theorems carry the in-bounds
  hypotheses under which the two coincide);
* cell indices, which are nonnegative in every panic-free run, are embedded
  as `Nat`; stored cell values stay `Int` (Rust `i32`, whose truncating `/`
  is `Int.tdiv`);
* the `while` loops of `topo_sort` are embedded with an explicit fuel
  parameter; `none` marks fuel exhaustion and the theorems show the chosen
  fuel is never exhausted on the admitted inputs.
-/

namespace Spreadsheet

/-- A cell's stored operation: a 3-character operation code together with two
operands, mirroring `struct Ops` in `src/main.rs` (the field name `opcpde` is
kept verbatim from the source). Each operand is either a literal or a linear
cell index, depending on the code. -/
structure Ops where
  opcpde : String
  cell1 : Int
  cell2 : Int
deriving DecidableEq

/-- The empty operation a fresh cell carries (`Ops { opcpde: String::new(), cell1: -1, cell2: -1 }`). -/
def emptyOp : Ops := ⟨"", -1, -1⟩

/-- Column/row recovery of a linear index, as computed at the top of every
range aggregate in `src/utils/operations.rs` and in the range branches of
`cell_update`: `x = c % cols` with `x == 0` meaning `x = cols`, and
`y = c / cols + (if x != cols then 1 else 0)`. -/
def rectOf (c cols : Nat) : Nat × Nat :=
  let x0 := c % cols
  let x := if x0 = 0 then cols else x0
  let y := c / cols + (if x ≠ cols then 1 else 0)
  (x, y)

/-- `int_to_ind` from `src/main.rs`: linear index of a packed `col*1000 + row`
coordinate in a grid `lenH` columns wide. -/
def intToInd (a lenH : Int) : Int :=
  a / 1000 + (a % 1000 - 1) * lenH

/-- The cell coordinates scanned by the nested
`for i in x1..=x2 { for j in y1..=y2 { ... } }` loops of the range aggregates
and the range branches of `cell_update`, in loop order. -/
def rectCells (x1 x2 y1 y2 : Nat) : List (Nat × Nat) :=
  (List.range' x1 (x2 + 1 - x1)).flatMap fun i =>
    (List.range' y1 (y2 + 1 - y1)).map fun j => (i, j)

/-- The linear indices scanned by the rectangle loops. -/
def rectIdx (x1 x2 y1 y2 cols : Nat) : List Nat :=
  (rectCells x1 x2 y1 y2).map fun p => p.1 + (p.2 - 1) * cols

/-- The membership test `xx1 <= i && i <= xx2 && xy1 <= j && j <= xy2` used by
the range-difference edits in `cell_update`. -/
def inRect (xx1 xx2 xy1 xy2 i j : Nat) : Bool :=
  decide (xx1 ≤ i) && decide (i ≤ xx2) && decide (xy1 ≤ j) && decide (j ≤ xy2)

/-- `sum` from `src/utils/operations.rs`: scans the rectangle spanned by the
corner indices `c1`, `c2`, accumulating the running sum of scanned values and
the OR of scanned error flags; writes the OR into `err[dest]` and returns the
sum. -/
def sum (c1 c2 : Nat) (dataBase : List Int) (nCols : Nat) (err : List Bool)
    (dest : Nat) : Int × List Bool :=
  let r1 := rectOf c1 nCols
  let r2 := rectOf c2 nCols
  let acc := (rectIdx r1.1 r2.1 r1.2 r2.2 nCols).foldl
    (fun (p : Int × Bool) k => (p.1 + dataBase.getD k 0, p.2 || err.getD k false))
    (0, false)
  (acc.1, err.set dest acc.2)

/-- `min` from `src/utils/operations.rs` (running minimum starting from
`i32::MAX`, OR of scanned error flags written to `err[dest]`). -/
def min (c1 c2 : Nat) (dataBase : List Int) (nCols : Nat) (err : List Bool)
    (dest : Nat) : Int × List Bool :=
  let r1 := rectOf c1 nCols
  let r2 := rectOf c2 nCols
  let acc := (rectIdx r1.1 r2.1 r1.2 r2.2 nCols).foldl
    (fun (p : Int × Bool) k =>
      (if dataBase.getD k 0 < p.1 then dataBase.getD k 0 else p.1,
       p.2 || err.getD k false))
    (2147483647, false)
  (acc.1, err.set dest acc.2)

/-- `max` from `src/utils/operations.rs` (running maximum starting from
`i32::MIN`, OR of scanned error flags written to `err[dest]`). -/
def max (c1 c2 : Nat) (dataBase : List Int) (nCols : Nat) (err : List Bool)
    (dest : Nat) : Int × List Bool :=
  let r1 := rectOf c1 nCols
  let r2 := rectOf c2 nCols
  let acc := (rectIdx r1.1 r2.1 r1.2 r2.2 nCols).foldl
    (fun (p : Int × Bool) k =>
      (if p.1 < dataBase.getD k 0 then dataBase.getD k 0 else p.1,
       p.2 || err.getD k false))
    (-2147483648, false)
  (acc.1, err.set dest acc.2)

/-- `avg` from `src/utils/operations.rs`: rectangle sum and count, truncating
integer division (`Int.tdiv`, matching Rust `i32` division). -/
def avg (c1 c2 : Nat) (dataBase : List Int) (nCols : Nat) (err : List Bool)
    (dest : Nat) : Int × List Bool :=
  let r1 := rectOf c1 nCols
  let r2 := rectOf c2 nCols
  let idxs := rectIdx r1.1 r2.1 r1.2 r2.2 nCols
  let acc := idxs.foldl
    (fun (p : Int × Bool) k => (p.1 + dataBase.getD k 0, p.2 || err.getD k false))
    (0, false)
  (acc.1.tdiv idxs.length, err.set dest acc.2)

/-- `stdev` from `src/utils/operations.rs`. The error-flag behaviour (OR over
the scanned rectangle, written to `err[dest]`) is embedded exactly; the
returned numeric value is modelled from the spec (population standard
deviation truncated to an integer, via `Nat.sqrt`), because the source
computes it with `f64` floating-point arithmetic, which this embedding does
not model bit-exactly. No claim depends on the returned value. -/
def stdev (c1 c2 : Nat) (dataBase : List Int) (nCols : Nat) (err : List Bool)
    (dest : Nat) : Int × List Bool :=
  let r1 := rectOf c1 nCols
  let r2 := rectOf c2 nCols
  let idxs := rectIdx r1.1 r2.1 r1.2 r2.2 nCols
  let acc := idxs.foldl
    (fun (p : Int × Bool) k => (p.1 + dataBase.getD k 0, p.2 || err.getD k false))
    (0, false)
  let mean := acc.1.tdiv idxs.length
  let varNum := idxs.foldl
    (fun (v : Int) k => v + (dataBase.getD k 0 - mean) * (dataBase.getD k 0 - mean)) 0
  (Nat.sqrt (varNum.tdiv idxs.length).toNat, err.set dest acc.2)

/-- `calc` from `src/main.rs` (named `calcCell` because `calc` is a reserved
word in Lean): dispatch on the target cell's operation code, recomputing its
value and error flag. Returns the updated `(database, err)` pair; all operand
reads are against the pre-call stores, exactly as in the source (the RHS of
each Rust assignment is evaluated before the write). The thread sleeps of
`SLV`/`SLC` affect only timing and are not modelled. -/
def calcCell (cell : Nat) (database : List Int) (opers : List Ops) (lenH : Nat)
    (err : List Bool) : List Int × List Bool :=
  let op := opers.getD cell emptyOp
  if op.opcpde = "CCA" then
    let c1 := op.cell1.toNat
    let c2 := op.cell2.toNat
    (database.set cell (database.getD c1 0 + database.getD c2 0),
     err.set cell (err.getD c1 false || err.getD c2 false))
  else if op.opcpde = "CVA" then
    let c1 := op.cell1.toNat
    (database.set cell (database.getD c1 0 + op.cell2), err.set cell (err.getD c1 false))
  else if op.opcpde = "VCA" then
    let c2 := op.cell2.toNat
    (database.set cell (database.getD c2 0 + op.cell1), err.set cell (err.getD c2 false))
  else if op.opcpde = "VVA" then
    (database.set cell (op.cell1 + op.cell2), err)
  else if op.opcpde = "CCS" then
    let c1 := op.cell1.toNat
    let c2 := op.cell2.toNat
    (database.set cell (database.getD c1 0 - database.getD c2 0),
     err.set cell (err.getD c1 false || err.getD c2 false))
  else if op.opcpde = "CVS" then
    let c1 := op.cell1.toNat
    (database.set cell (database.getD c1 0 - op.cell2), err.set cell (err.getD c1 false))
  else if op.opcpde = "VCS" then
    let c2 := op.cell2.toNat
    (database.set cell (op.cell1 - database.getD c2 0), err.set cell (err.getD c2 false))
  else if op.opcpde = "VVS" then
    (database.set cell (op.cell1 - op.cell2), err)
  else if op.opcpde = "CCM" then
    let c1 := op.cell1.toNat
    let c2 := op.cell2.toNat
    (database.set cell (database.getD c1 0 * database.getD c2 0),
     err.set cell (err.getD c1 false || err.getD c2 false))
  else if op.opcpde = "CVM" then
    let c1 := op.cell1.toNat
    (database.set cell (database.getD c1 0 * op.cell2), err.set cell (err.getD c1 false))
  else if op.opcpde = "VCM" then
    let c2 := op.cell2.toNat
    (database.set cell (op.cell1 * database.getD c2 0), err.set cell (err.getD c2 false))
  else if op.opcpde = "VVM" then
    (database.set cell (op.cell1 * op.cell2), err)
  else if op.opcpde = "CCD" then
    let c1 := op.cell1.toNat
    let c2 := op.cell2.toNat
    let err' := err.set cell
      (err.getD c1 false || err.getD c2 false || decide (database.getD c2 0 = 0))
    if database.getD c2 0 ≠ 0 then
      (database.set cell ((database.getD c1 0).tdiv (database.getD c2 0)), err')
    else (database, err')
  else if op.opcpde = "CVD" then
    let c1 := op.cell1.toNat
    let err' := err.set cell (err.getD c1 false || decide (op.cell2 = 0))
    if op.cell2 ≠ 0 then
      (database.set cell ((database.getD c1 0).tdiv op.cell2), err')
    else (database, err')
  else if op.opcpde = "VCD" then
    let c2 := op.cell2.toNat
    let err' := err.set cell (err.getD c2 false || decide (database.getD c2 0 = 0))
    if database.getD c2 0 ≠ 0 then
      (database.set cell (op.cell1.tdiv (database.getD c2 0)), err')
    else (database, err')
  else if op.opcpde = "VVD" then
    let err' := err.set cell (decide (op.cell2 = 0))
    if op.cell2 ≠ 0 then
      (database.set cell (op.cell1.tdiv op.cell2), err')
    else (database, err')
  else if op.opcpde = "EQC" then
    let c1 := op.cell1.toNat
    (database.set cell (database.getD c1 0), err.set cell (err.getD c1 false))
  else if op.opcpde = "EQV" then
    (database.set cell op.cell1, err.set cell false)
  else if op.opcpde = "MIN" then
    let r := min op.cell1.toNat op.cell2.toNat database lenH err cell
    (database.set cell r.1, r.2)
  else if op.opcpde = "MAX" then
    let r := max op.cell1.toNat op.cell2.toNat database lenH err cell
    (database.set cell r.1, r.2)
  else if op.opcpde = "MEA" then
    let r := avg op.cell1.toNat op.cell2.toNat database lenH err cell
    (database.set cell r.1, r.2)
  else if op.opcpde = "SUM" then
    let r := sum op.cell1.toNat op.cell2.toNat database lenH err cell
    (database.set cell r.1, r.2)
  else if op.opcpde = "STD" then
    let r := stdev op.cell1.toNat op.cell2.toNat database lenH err cell
    (database.set cell r.1, r.2)
  else if op.opcpde = "SLV" then
    (database.set cell op.cell1, err.set cell false)
  else if op.opcpde = "SLC" then
    let c1 := op.cell1.toNat
    if err.getD c1 false then (database, err.set cell true)
    else (database.set cell (database.getD c1 0), err.set cell false)
  else (database, err)

/-- `val_update` from `src/main.rs`: run `calc` over the cells listed in the
count-prefixed topological order `topo_arr` (positions `1..=topo_arr[0]`). -/
def valUpdate (topoArr : List Int) (database : List Int) (opers : List Ops)
    (lenH : Nat) (err : List Bool) : List Int × List Bool :=
  (List.range' 1 (topoArr.getD 0 0).toNat).foldl
    (fun st i => calcCell (topoArr.getD i 0).toNat st.1 opers lenH st.2)
    (database, err)

/-- Phase A inner loop of `topo_sort` (`src/utils/toposort.rs`): walk one
node's outgoing edge list; an edge back to `cell` reports a cycle and stops,
otherwise each destination whose indegree is zero is enqueued and its
indegree incremented. Returns (queue, indegree, cycle-found). -/
def visitEdges (cell : Nat) : List Nat → List Nat → List Int → List Nat × List Int × Bool
  | [], q, ind => (q, ind, false)
  | c :: cs, q, ind =>
    if c = cell then (q, ind, true)
    else
      let q' := if ind.getD c 0 = 0 then q ++ [c] else q
      visitEdges cell cs q' (ind.set c (ind.getD c 0 + 1))

/-- Phase A outer loop of `topo_sort`: breadth-first discovery seeded at
`cell`; `ct` counts pops (starting from 1 as in the source). Returns
(leftover queue, indegree, ct, cycle flag). -/
def phaseA (adj : List (List Nat)) (cell : Nat) :
    Nat → List Nat → List Int → Nat → Option (List Nat × List Int × Nat × Bool)
  | 0, _, _, _ => none
  | fuel + 1, q, ind, ct =>
    match q with
    | [] => some ([], ind, ct, false)
    | node :: rest =>
      let r := visitEdges cell (adj.getD node []) rest ind
      if r.2.2 then some (r.1, r.2.1, ct + 1, true)
      else phaseA adj cell fuel r.1 r.2.1 (ct + 1)

/-- Cycle-path inner loop of `topo_sort`: re-walk one node's edges, stopping
at an edge back to `cell`; push destinations that still carry a positive
indegree, then zero their indegree. -/
def zeroEdges (cell : Nat) : List Nat → List Nat → List Int → List Nat × List Int
  | [], q, ind => (q, ind)
  | c :: cs, q, ind =>
    if c = cell then (q, ind)
    else
      let q' := if 0 < ind.getD c 0 then q ++ [c] else q
      zeroEdges cell cs q' (ind.set c 0)

/-- Cycle-path outer loop of `topo_sort`: drain the queue, zeroing every
indegree entry phase A incremented. -/
def revertLoop (adj : List (List Nat)) (cell : Nat) :
    Nat → List Nat → List Int → Option (List Int)
  | 0, _, _ => none
  | fuel + 1, q, ind =>
    match q with
    | [] => some ind
    | node :: rest =>
      let r := zeroEdges cell (adj.getD node []) rest ind
      revertLoop adj cell fuel r.1 r.2

/-- Kahn inner loop of `topo_sort`: decrement the indegree of each forward
neighbour, enqueueing any that reach exactly zero. -/
def drainEdges : List Nat → List Nat → List Int → List Nat × List Int
  | [], q, ind => (q, ind)
  | c :: cs, q, ind =>
    let v := ind.getD c 0 - 1
    let q' := if v = 0 then q ++ [c] else q
    drainEdges cs q' (ind.set c v)

/-- Kahn outer loop of `topo_sort`: repeatedly dequeue a zero-indegree node,
append it to the output order, and drain its outgoing edges. -/
def kahnLoop (adj : List (List Nat)) :
    Nat → List Nat → List Int → List Nat → Option (List Nat × List Int)
  | 0, _, _, _ => none
  | fuel + 1, q, ind, out =>
    match q with
    | [] => some (out, ind)
    | node :: rest =>
      let r := drainEdges (adj.getD node []) rest ind
      kahnLoop adj fuel r.1 r.2 (out ++ [node])

/-- `topo_sort` from `src/utils/toposort.rs`. Returns the count-prefixed
result vector (first element `-1` on a detected cycle) and the final
indegree workspace. The source's `res` vector of length `ct` is assembled
from the Kahn output list plus the untouched zero padding. -/
def topoSort (adj : List (List Nat)) (cell : Nat) (ind : List Int) (fuel : Nat) :
    Option (List Int × List Int) :=
  match phaseA adj cell fuel [cell] ind 1 with
  | none => none
  | some (q, ind1, ct, isCycle) =>
    if isCycle then
      match revertLoop adj cell fuel (q ++ [cell]) ind1 with
      | none => none
      | some ind2 => some (-1 :: List.replicate (ct - 1) 0, ind2)
    else
      match kahnLoop adj fuel (q ++ [cell]) ind1 [] with
      | none => none
      | some (out, ind2) =>
        some ((((ct - 1 : Nat) : Int) :: out.map fun v => (v : Int)) ++
          List.replicate (ct - 1 - out.length) 0, ind2)

/-- `sensi[src].retain(|&x| x != target)` — removes every matching entry. -/
def removeAll (sensi : List (List Nat)) (src target : Nat) : List (List Nat) :=
  sensi.set src ((sensi.getD src []).filter fun x => x ≠ target)

/-- The guarded push of `cell_update`'s edge-addition phase:
`if sensi[src].is_empty() || *sensi[src].last().unwrap() != target { push(target) }`. -/
def pushIfNew (sensi : List (List Nat)) (src target : Nat) : List (List Nat) :=
  let l := sensi.getD src []
  if l.isEmpty || l.getLast? ≠ some target then sensi.set src (l ++ [target]) else sensi

/-- Unconditional `sensi[src].push(target)` (range edge-addition). -/
def pushBack (sensi : List (List Nat)) (src target : Nat) : List (List Nat) :=
  sensi.set src ((sensi.getD src []) ++ [target])

/-- The guarded pop of `cell_update`'s cycle-rejection path:
`if let Some(first) = sensi[src].first() { if *first == target { sensi[src].pop(); } }`
(the guard inspects the FIRST element but `pop` removes the LAST). -/
def popIfHeadMatches (sensi : List (List Nat)) (src target : Nat) : List (List Nat) :=
  let l := sensi.getD src []
  match l.head? with
  | some f => if f = target then sensi.set src l.dropLast else sensi
  | none => sensi

/-- Unconditional `sensi[src].pop()` (range removal on the rejection path). -/
def popBack (sensi : List (List Nat)) (src : Nat) : List (List Nat) :=
  sensi.set src (sensi.getD src []).dropLast

/-- Membership of a code in the range-aggregate family, as tested by
`["SUM", "MIN", "MAX", "MEA", "STD"].contains(...)` in `cell_update`. -/
def isRangeCode (code : String) : Bool :=
  ["SUM", "MIN", "MAX", "MEA", "STD"].contains code

/-- The Rust test `opcpde.starts_with('C')` (first character is `C`), written
through the character list so that it reduces definitionally. -/
def startsWithC (code : String) : Bool :=
  code.toList.get? 0 = some 'C'

/-- `opcpde.chars().nth(1)`. -/
def charAt1 (code : String) : Option Char :=
  code.toList.get? 1

/-- Apply a per-cell sensitivity edit over the rectangle of the operation
with corners `c1`, `c2`. -/
def rectEdit (f : List (List Nat) → Nat → List (List Nat)) (c1 c2 : Nat)
    (lenH : Nat) (sensi : List (List Nat)) : List (List Nat) :=
  let r1 := rectOf c1 lenH
  let r2 := rectOf c2 lenH
  (rectCells r1.1 r2.1 r1.2 r2.2).foldl
    (fun s p => f s (p.1 + (p.2 - 1) * lenH)) sensi

/-- Apply a per-cell sensitivity edit over the rectangle of `c1`, `c2`,
skipping the cells that also lie inside the rectangle of `d1`, `d2` (the
set-difference edit used when both the old and the new code are ranges). -/
def rectEditExcept (f : List (List Nat) → Nat → List (List Nat)) (c1 c2 d1 d2 : Nat)
    (lenH : Nat) (sensi : List (List Nat)) : List (List Nat) :=
  let r1 := rectOf c1 lenH
  let r2 := rectOf c2 lenH
  let s1 := rectOf d1 lenH
  let s2 := rectOf d2 lenH
  (rectCells r1.1 r2.1 r1.2 r2.2).foldl
    (fun s p =>
      if inRect s1.1 s2.1 s1.2 s2.2 p.1 p.2 then s
      else f s (p.1 + (p.2 - 1) * lenH)) sensi

/-- The "Removing older values from sensitivity list" block of `cell_update`
(`src/main.rs` lines 361-423): erase the edges the previous operation `rev`
had registered; when both the old and the new code are ranges, only the part
of the old rectangle outside the new rectangle is erased. -/
def sensiRemoveOld (rev : Ops) (code : String) (c1 c2 : Int) (target : Nat)
    (lenH : Nat) (sensi : List (List Nat)) : List (List Nat) :=
  let sensi := if startsWithC rev.opcpde then removeAll sensi rev.cell1.toNat target else sensi
  let sensi := if charAt1 rev.opcpde = some 'C' then removeAll sensi rev.cell2.toNat target else sensi
  let sensi := if rev.opcpde = "EQC" then removeAll sensi rev.cell1.toNat target else sensi
  let sensi := if rev.opcpde = "SLC" then removeAll sensi rev.cell1.toNat target else sensi
  if isRangeCode rev.opcpde then
    if isRangeCode code then
      rectEditExcept (fun s k => removeAll s k target)
        rev.cell1.toNat rev.cell2.toNat c1.toNat c2.toNat lenH sensi
    else
      rectEdit (fun s k => removeAll s k target) rev.cell1.toNat rev.cell2.toNat lenH sensi
  else sensi

/-- The "Adding items to sensitivity list" block of `cell_update`
(`src/main.rs` lines 425-498): register the edges of the new operation; when
both codes are ranges, only the part of the new rectangle outside the old
rectangle is pushed. -/
def sensiAddNew (code : String) (c1 c2 : Int) (rev : Ops) (target : Nat)
    (lenH : Nat) (sensi : List (List Nat)) : List (List Nat) :=
  let sensi := if startsWithC code then pushIfNew sensi c1.toNat target else sensi
  let sensi := if charAt1 code = some 'C' then pushIfNew sensi c2.toNat target else sensi
  let sensi := if code = "EQC" then pushIfNew sensi c1.toNat target else sensi
  let sensi := if code = "SLC" then pushIfNew sensi c1.toNat target else sensi
  if isRangeCode code then
    if isRangeCode rev.opcpde then
      rectEditExcept (fun s k => pushBack s k target)
        c1.toNat c2.toNat rev.cell1.toNat rev.cell2.toNat lenH sensi
    else
      rectEdit (fun s k => pushBack s k target) c1.toNat c2.toNat lenH sensi
  else sensi

/-- The "Removing items from sensitivity list" block of the rejection path of
`cell_update` (`src/main.rs` lines 503-581): undo the pushes of the new
operation, via `pop`-style edits. -/
def sensiRejectRemove (code : String) (c1 c2 : Int) (rev : Ops) (target : Nat)
    (lenH : Nat) (sensi : List (List Nat)) : List (List Nat) :=
  let sensi := if startsWithC code then popIfHeadMatches sensi c1.toNat target else sensi
  let sensi := if charAt1 code = some 'C' then popIfHeadMatches sensi c2.toNat target else sensi
  let sensi := if code = "EQC" then popIfHeadMatches sensi c1.toNat target else sensi
  let sensi := if code = "SLC" then popIfHeadMatches sensi c1.toNat target else sensi
  if isRangeCode code then
    if isRangeCode rev.opcpde then
      rectEditExcept (fun s k => popBack s k)
        c1.toNat c2.toNat rev.cell1.toNat rev.cell2.toNat lenH sensi
    else
      rectEdit (fun s k => popBack s k) c1.toNat c2.toNat lenH sensi
  else sensi

/-- The "Adding back older values" block of the rejection path of
`cell_update` (`src/main.rs` lines 583-658): re-register the edges of the
previous operation `rev`. -/
def sensiRejectReadd (rev : Ops) (code : String) (c1 c2 : Int) (target : Nat)
    (lenH : Nat) (sensi : List (List Nat)) : List (List Nat) :=
  let sensi := if startsWithC rev.opcpde then pushIfNew sensi rev.cell1.toNat target else sensi
  let sensi := if charAt1 rev.opcpde = some 'C' then pushIfNew sensi rev.cell2.toNat target else sensi
  let sensi := if rev.opcpde = "EQC" then pushIfNew sensi rev.cell1.toNat target else sensi
  let sensi := if rev.opcpde = "SLC" then pushIfNew sensi rev.cell1.toNat target else sensi
  if isRangeCode rev.opcpde then
    if isRangeCode code then
      rectEditExcept (fun s k => pushBack s k target)
        rev.cell1.toNat rev.cell2.toNat c1.toNat c2.toNat lenH sensi
    else
      rectEdit (fun s k => pushBack s k target) rev.cell1.toNat rev.cell2.toNat lenH sensi
  else sensi

/-- `cell_update` from `src/main.rs`, taking the edit request in the form it
has after the operand-resolution step of lines 339-359: `target` is the
resolved linear index of `inp_arr[0]`, `code` is `inp_arr[1]`, and `c1`, `c2`
are the resolved operands (literal value, or linear cell index when the code
marks the slot as a cell reference). Returns the status (1 = committed,
0 = cycle-rejected) together with the five updated stores, in the order
(database, sensi, opers, indegree, err). The sensitivity-list edit blocks of
the source are the four `sensi...` functions above. -/
def cellUpdate (target : Nat) (code : String) (c1 c2 : Int)
    (database : List Int) (sensi : List (List Nat)) (opers : List Ops)
    (lenH : Nat) (indegree : List Int) (err : List Bool) (fuel : Nat) :
    Option (Int × List Int × List (List Nat) × List Ops × List Int × List Bool) :=
  let rev := opers.getD target emptyOp
  let opers := opers.set target ⟨code, c1, c2⟩
  let sensi := sensiRemoveOld rev code c1 c2 target lenH sensi
  let sensi := sensiAddNew code c1 c2 rev target lenH sensi
  match topoSort sensi target indegree fuel with
  | none => none
  | some (topo, indegree) =>
    if topo.getD 0 0 = -1 then
      let sensi := sensiRejectRemove code c1 c2 rev target lenH sensi
      let sensi := sensiRejectReadd rev code c1 c2 target lenH sensi
      -- Restoring back previous ops in case of cycle
      let opers := opers.set target rev
      some (0, database, sensi, opers, indegree, err)
    else
      let r := valUpdate topo database opers lenH err
      some (1, r.1, sensi, opers, indegree, r.2)

/-! ### Spec-side definitions

The following definitions transcribe phrases of the specification (not the
source); they exist only to state claims that compare the code against the
spec's words. -/

/-- The divisor of a divide operation "as resolved through the value store"
(spec wording): the second operand is read through the database exactly when
the code's second position marks it as a cell reference. -/
def resolvedDivisor (op : Ops) (database : List Int) : Int :=
  if charAt1 op.opcpde = some 'C' then database.getD op.cell2.toNat 0 else op.cell2

/-- Spec-side resolution of an arithmetic operand slot: a `C` slot reads the
value store at the operand, a `V` slot is the literal itself. -/
def slotValue (s : Option Char) (operand : Int) (database : List Int) : Int :=
  if s = some 'C' then database.getD operand.toNat 0 else operand

/-- Spec-side operand error: a cell operand contributes its error flag, a
literal operand contributes no error. -/
def slotErr (s : Option Char) (operand : Int) (err : List Bool) : Bool :=
  if s = some 'C' then err.getD operand.toNat false else false

/-- Spec-side binary operation selected by the third code character. -/
def arithResult (o : Option Char) (v1 v2 : Int) : Int :=
  if o = some 'A' then v1 + v2
  else if o = some 'S' then v1 - v2
  else if o = some 'M' then v1 * v2
  else v1.tdiv v2

/-- `opcpde.chars().nth(0)`. -/
def charAt0 (code : String) : Option Char :=
  code.toList.get? 0

/-- `opcpde.chars().nth(2)`. -/
def charAt2 (code : String) : Option Char :=
  code.toList.get? 2

/-- The 16 arithmetic operation codes. -/
def arithCodes : List String :=
  ["CCA", "CVA", "VCA", "VVA", "CCS", "CVS", "VCS", "VVS",
   "CCM", "CVM", "VCM", "VVM", "CCD", "CVD", "VCD", "VVD"]

/-! ### Graph-theoretic vocabulary for the `topo_sort` claims -/

/-- The forward edge relation of the adjacency structure handed to
`topo_sort`: an edge `x → y` for every entry `y` of `adj[x]` (the sensitivity
lists store one entry per read, so edges carry multiplicity, but the relation
ignores it). -/
def edgeStep (adj : List (List Nat)) (x y : Nat) : Prop :=
  y ∈ adj.getD x []

instance (adj : List (List Nat)) (x y : Nat) : Decidable (edgeStep adj x y) := by
  unfold edgeStep; infer_instance

/-- Reachability along forward edges (reflexive-transitive closure). -/
def Reach (adj : List (List Nat)) (x y : Nat) : Prop :=
  Relation.ReflTransGen (edgeStep adj) x y

/-- The adjacency structure is acyclic on the set of nodes reachable from
`cell`: no reachable node lies on a nonempty directed cycle. -/
def AcyclicFrom (adj : List (List Nat)) (cell : Nat) : Prop :=
  ∀ v, Reach adj cell v → ¬ Relation.TransGen (edgeStep adj) v v

/-- Number of edges (with multiplicity) from the node set `P` into `v`. -/
def inCnt (adj : List (List Nat)) (P : Finset Nat) (v : Nat) : Nat :=
  ∑ x ∈ P, (adj.getD x []).count v

/-- Every entry of the indegree workspace is zero. -/
def AllZero (ind : List Int) : Prop :=
  ∀ v, ind.getD v 0 = 0

/-- The edge list of `x` that the cycle-path loops of `topo_sort` re-walk:
the prefix of `adj[x]` strictly before the first edge back to `cell`. -/
def walkPre (adj : List (List Nat)) (cell x : Nat) : List Nat :=
  (adj.getD x []).takeWhile fun c => c ≠ cell

/-- A chain of walked-prefix edges from `x` to `v` all of whose nodes strictly
between `x` and `v` carry a positive indegree entry.  This is the invariant
vehicle for the cycle-path re-zeroing proof. -/
inductive Wit (adj : List (List Nat)) (cell : Nat) (ind : List Int) : Nat → Nat → Prop
  | single {x v : Nat} : v ∈ walkPre adj cell x → Wit adj cell ind x v
  | cons {x u v : Nat} : u ∈ walkPre adj cell x → 0 < ind.getD u 0 →
      Wit adj cell ind u v → Wit adj cell ind x v

/-- Frame statement for one `calc` call: the result pair agrees with the
pre-call stores at index `j`. -/
def FrameAt (j : Nat) (database : List Int) (err : List Bool)
    (r : List Int × List Bool) : Prop :=
  r.1.getD j 0 = database.getD j 0 ∧ r.2.getD j false = err.getD j false

/-- The set of positive entries of the indegree workspace (used only to bound
the fuel of the two drain loops of `topo_sort`). -/
def livePos (ind : List Int) : Finset Nat :=
  (Finset.range ind.length).filter fun v => 0 < ind.getD v 0

/-- Invariant of the discovery loop of `topo_sort`, relating the processed
set `P` (a ghost variable: the nodes popped so far), the queue and the
indegree workspace, for a run that has not yet seen an edge back to `cell`
and that started from an all-zero workspace. -/
structure PAInv (adj : List (List Nat)) (cell : Nat) (n : Nat)
    (P : Finset Nat) (q : List Nat) (ind : List Int) : Prop where
  len : ind.length = n
  qReach : ∀ v ∈ q, Reach adj cell v
  pReach : ∀ v ∈ P, Reach adj cell v
  qNodup : q.Nodup
  pqDisj : ∀ v ∈ q, v ∉ P
  cnt : ∀ v, ind.getD v 0 = (inCnt adj P v : Int)
  closure : ∀ v, (v ∈ P ∨ v ∈ q) ↔ (v = cell ∨ ∃ x ∈ P, v ∈ adj.getD x [])
  noCell : ∀ x ∈ P, cell ∉ adj.getD x []
  pBound : ∀ v ∈ P, v < n
  qBound : ∀ v ∈ q, v < n
  wit : ∀ v, 0 < ind.getD v 0 → Wit adj cell ind cell v

/-- Invariant of the Kahn loop of `topo_sort`, over the reachable set `R`
computed by phase A: `D` is the ghost set of already emitted nodes (in the
order recorded by `out`), and the workspace holds the number of edges into
each node from the not-yet-emitted part of `R`. -/
structure KInv (adj : List (List Nat)) (cell n : Nat) (R : Finset Nat)
    (D : Finset Nat) (q : List Nat) (ind : List Int) (out : List Nat) : Prop where
  len : ind.length = n
  sub : D ⊆ R
  outD : ∀ v, v ∈ out ↔ v ∈ D
  outNodup : out.Nodup
  cnt : ∀ v, ind.getD v 0 = (inCnt adj (R \ D) v : Int)
  qchar : ∀ v, v ∈ q ↔ v ∈ R ∧ v ∉ D ∧ inCnt adj (R \ D) v = 0
  qNodup : q.Nodup
  doneZero : ∀ v ∈ D, inCnt adj (R \ D) v = 0
  ord : ∀ y ∈ out, ∀ x ∈ R, y ∈ adj.getD x [] →
      x ∈ out ∧ List.indexOf x out < List.indexOf y out

/-! ### List access helper lemmas -/

theorem getD_set_self {α} {l : List α} {i : Nat} {a d : α} (h : i < l.length) :
    (l.set i a).getD i d = a := by
  simp [List.getD_eq_getElem?_getD, List.getElem?_set_self h]

theorem getD_set_ne {α} {l : List α} {i j : Nat} {a d : α} (h : i ≠ j) :
    (l.set i a).getD j d = l.getD j d := by
  simp [List.getD_eq_getElem?_getD, List.getElem?_set_ne h]

theorem getElemD_set_self {α} {l : List α} {i : Nat} {a d : α} (h : i < l.length) :
    (l.set i a)[i]?.getD d = a := by
  simp [List.getElem?_set_self h]

theorem getElemD_set_ne {α} {l : List α} {i j : Nat} {a d : α} (h : i ≠ j) :
    (l.set i a)[j]?.getD d = l[j]?.getD d := by
  simp [List.getElem?_set_ne h]

/-! ### C9: round-trip addressing -/

theorem rectOf_linear {cols col row : Nat} (hc1 : 1 ≤ col) (hc2 : col ≤ cols)
    (hr1 : 1 ≤ row) : rectOf (col + (row - 1) * cols) cols = (col, row) := by
  have hcols : 0 < cols := lt_of_lt_of_le hc1 hc2
  have hmod : (col + (row - 1) * cols) % cols = col % cols :=
    Nat.add_mul_mod_self_right col (row - 1) cols
  have hdiv : (col + (row - 1) * cols) / cols = col / cols + (row - 1) :=
    Nat.add_mul_div_right col (row - 1) hcols
  rcases eq_or_lt_of_le hc2 with hceq | hclt
  · subst hceq
    simp only [rectOf, hmod, hdiv, Nat.mod_self, Nat.div_self hcols]
    simp [Prod.ext_iff]
    omega
  · have h1 : col % cols = col := Nat.mod_eq_of_lt hclt
    have h2 : col / cols = 0 := Nat.div_eq_of_lt hclt
    have h3 : ¬ col = 0 := by omega
    have h4 : col ≠ cols := Nat.ne_of_lt hclt
    simp only [rectOf, hmod, hdiv, h1, h2, if_neg h3, if_pos h4]
    simp [Prod.ext_iff]
    omega

/-- C9: for a grid at least one column wide and any in-bounds coordinate pair,
the recovery formulas `col = i % columns` (with `col == 0` meaning
`col = columns`) and `row = i / columns + (if col != columns then 1 else 0)`
applied to the linear index `i = col + (row - 1) * columns` return exactly
`(col, row)`. -/
theorem roundtrip_addressing (cols rows col row : Nat) (hc1 : 1 ≤ col)
    (hc2 : col ≤ cols) (hr1 : 1 ≤ row) (hr2 : row ≤ rows) :
    rectOf (col + (row - 1) * cols) cols = (col, row) :=
  rectOf_linear hc1 hc2 hr1

/-- Witness for `roundtrip_addressing` at a concrete in-bounds coordinate. -/
theorem roundtrip_addressing_witness :
    rectOf (2 + (3 - 1) * 4) 4 = (2, 3) :=
  roundtrip_addressing 4 5 2 3 (by decide) (by decide) (by decide) (by decide)

/-! ### C5: divide-by-zero staleness -/

/-- C5: for each divide code (`CCD`, `CVD`, `VCD`, `VVD`), when the resolved
divisor is zero `calc` sets the target cell's error flag to `true` and leaves
the whole value store (in particular the target's stale value) unchanged. -/
theorem divide_by_zero_stale (cell : Nat) (database : List Int) (opers : List Ops)
    (lenH : Nat) (err : List Bool)
    (hcode : (opers.getD cell emptyOp).opcpde ∈ ["CCD", "CVD", "VCD", "VVD"])
    (hdiv : resolvedDivisor (opers.getD cell emptyOp) database = 0)
    (hcell : cell < err.length) :
    (calcCell cell database opers lenH err).1 = database ∧
    (calcCell cell database opers lenH err).2.getD cell false = true := by
  simp only [List.mem_cons, List.not_mem_nil, or_false] at hcode
  rcases hcode with h | h | h | h
  · rw [resolvedDivisor, h, if_pos (show charAt1 "CCD" = some 'C' by decide)] at hdiv
    simp only [List.getD_eq_getElem?_getD] at h hdiv
    simp [calcCell, h, hdiv, getElemD_set_self hcell]
  · rw [resolvedDivisor, h, if_neg (show ¬ charAt1 "CVD" = some 'C' by decide)] at hdiv
    simp only [List.getD_eq_getElem?_getD] at h hdiv
    simp [calcCell, h, hdiv, getElemD_set_self hcell]
  · rw [resolvedDivisor, h, if_pos (show charAt1 "VCD" = some 'C' by decide)] at hdiv
    simp only [List.getD_eq_getElem?_getD] at h hdiv
    simp [calcCell, h, hdiv, getElemD_set_self hcell]
  · rw [resolvedDivisor, h, if_neg (show ¬ charAt1 "VVD" = some 'C' by decide)] at hdiv
    simp only [List.getD_eq_getElem?_getD] at h hdiv
    simp [calcCell, h, hdiv, getElemD_set_self hcell]

/-- Witness for `divide_by_zero_stale`: a cell holding 15 reassigned to
`CCD(a, b)` with `b` resolving to zero keeps its value and raises its flag. -/
theorem divide_by_zero_stale_witness :
    (calcCell 3 [0, 15, 0, 15] [emptyOp, emptyOp, emptyOp, ⟨"CCD", 1, 2⟩] 3
      [false, false, false, false]).1 = [0, 15, 0, 15] ∧
    (calcCell 3 [0, 15, 0, 15] [emptyOp, emptyOp, emptyOp, ⟨"CCD", 1, 2⟩] 3
      [false, false, false, false]).2.getD 3 false = true :=
  divide_by_zero_stale 3 [0, 15, 0, 15] [emptyOp, emptyOp, emptyOp, ⟨"CCD", 1, 2⟩] 3
    [false, false, false, false] (by decide) (by decide) (by decide)

/-! ### C10: the frame property of `calc` -/

theorem min_frame {c1 c2 : Nat} {db : List Int} {n : Nat} {err : List Bool}
    {dest j : Nat} (h : dest ≠ j) :
    (Spreadsheet.min c1 c2 db n err dest).2.getD j false = err.getD j false := by
  simp only [Spreadsheet.min]
  exact getD_set_ne h

theorem max_frame {c1 c2 : Nat} {db : List Int} {n : Nat} {err : List Bool}
    {dest j : Nat} (h : dest ≠ j) :
    (Spreadsheet.max c1 c2 db n err dest).2.getD j false = err.getD j false := by
  simp only [Spreadsheet.max]
  exact getD_set_ne h

theorem sum_frame {c1 c2 : Nat} {db : List Int} {n : Nat} {err : List Bool}
    {dest j : Nat} (h : dest ≠ j) :
    (Spreadsheet.sum c1 c2 db n err dest).2.getD j false = err.getD j false := by
  simp only [Spreadsheet.sum]
  exact getD_set_ne h

theorem avg_frame {c1 c2 : Nat} {db : List Int} {n : Nat} {err : List Bool}
    {dest j : Nat} (h : dest ≠ j) :
    (Spreadsheet.avg c1 c2 db n err dest).2.getD j false = err.getD j false := by
  simp only [Spreadsheet.avg]
  exact getD_set_ne h

theorem stdev_frame {c1 c2 : Nat} {db : List Int} {n : Nat} {err : List Bool}
    {dest j : Nat} (h : dest ≠ j) :
    (Spreadsheet.stdev c1 c2 db n err dest).2.getD j false = err.getD j false := by
  simp only [Spreadsheet.stdev]
  exact getD_set_ne h

theorem frameAt_ite {j : Nat} {database : List Int} {err : List Bool} {P : Prop}
    [Decidable P] {t e : List Int × List Bool} (ht : FrameAt j database err t)
    (he : FrameAt j database err e) :
    FrameAt j database err (if P then t else e) := by
  by_cases h : P
  · simpa [h] using ht
  · simpa [h] using he

/-- C10: a single `calc` call modifies at most the target cell's entry in the
value store and in the error store; every other index reads back unchanged
(the range aggregates write only the destination's error flag). -/
theorem calc_frame (cell : Nat) (database : List Int) (opers : List Ops)
    (lenH : Nat) (err : List Bool) (j : Nat) (hj : j ≠ cell) :
    (calcCell cell database opers lenH err).1.getD j 0 = database.getD j 0 ∧
    (calcCell cell database opers lenH err).2.getD j false = err.getD j false := by
  have hne : cell ≠ j := Ne.symm hj
  have main : FrameAt j database err (calcCell cell database opers lenH err) := by
    simp only [calcCell]
    exact frameAt_ite ⟨getD_set_ne hne, getD_set_ne hne⟩
      (frameAt_ite ⟨getD_set_ne hne, getD_set_ne hne⟩
      (frameAt_ite ⟨getD_set_ne hne, getD_set_ne hne⟩
      (frameAt_ite ⟨getD_set_ne hne, rfl⟩
      (frameAt_ite ⟨getD_set_ne hne, getD_set_ne hne⟩
      (frameAt_ite ⟨getD_set_ne hne, getD_set_ne hne⟩
      (frameAt_ite ⟨getD_set_ne hne, getD_set_ne hne⟩
      (frameAt_ite ⟨getD_set_ne hne, rfl⟩
      (frameAt_ite ⟨getD_set_ne hne, getD_set_ne hne⟩
      (frameAt_ite ⟨getD_set_ne hne, getD_set_ne hne⟩
      (frameAt_ite ⟨getD_set_ne hne, getD_set_ne hne⟩
      (frameAt_ite ⟨getD_set_ne hne, rfl⟩
      (frameAt_ite (frameAt_ite ⟨getD_set_ne hne, getD_set_ne hne⟩ ⟨rfl, getD_set_ne hne⟩)
      (frameAt_ite (frameAt_ite ⟨getD_set_ne hne, getD_set_ne hne⟩ ⟨rfl, getD_set_ne hne⟩)
      (frameAt_ite (frameAt_ite ⟨getD_set_ne hne, getD_set_ne hne⟩ ⟨rfl, getD_set_ne hne⟩)
      (frameAt_ite (frameAt_ite ⟨getD_set_ne hne, getD_set_ne hne⟩ ⟨rfl, getD_set_ne hne⟩)
      (frameAt_ite ⟨getD_set_ne hne, getD_set_ne hne⟩
      (frameAt_ite ⟨getD_set_ne hne, getD_set_ne hne⟩
      (frameAt_ite ⟨getD_set_ne hne, min_frame hne⟩
      (frameAt_ite ⟨getD_set_ne hne, max_frame hne⟩
      (frameAt_ite ⟨getD_set_ne hne, avg_frame hne⟩
      (frameAt_ite ⟨getD_set_ne hne, sum_frame hne⟩
      (frameAt_ite ⟨getD_set_ne hne, stdev_frame hne⟩
      (frameAt_ite ⟨getD_set_ne hne, getD_set_ne hne⟩
      (frameAt_ite (frameAt_ite ⟨rfl, getD_set_ne hne⟩ ⟨getD_set_ne hne, getD_set_ne hne⟩)
      ⟨rfl, rfl⟩))))))))))))))))))))))))
  exact main

/-- Witness for `calc_frame` at a concrete state and off-target index. -/
theorem calc_frame_witness :
    (calcCell 3 [0, 10, 5, 0] [emptyOp, emptyOp, emptyOp, ⟨"CCA", 1, 2⟩] 3
      [false, true, false, false]).1.getD 1 0 = 10 ∧
    (calcCell 3 [0, 10, 5, 0] [emptyOp, emptyOp, emptyOp, ⟨"CCA", 1, 2⟩] 3
      [false, true, false, false]).2.getD 1 false = true := by
  have h := calc_frame 3 [0, 10, 5, 0] [emptyOp, emptyOp, emptyOp, ⟨"CCA", 1, 2⟩] 3
    [false, true, false, false] 1 (by decide)
  exact ⟨h.1.trans (by decide), h.2.trans (by decide)⟩

/-! ### C6: the arithmetic table -/

/-- C6 counterexample: on the literal-only code `VVA`, `calc` computes the
value but never writes the error flag, so a stale `error = true` survives,
where the claim (error = OR of the cell-operand errors, literal operands
contributing none) predicts `error = false`. Cell 1 starts with
`error = true` and is assigned `VVA 1 2`. -/
theorem arith_table_cex :
    (calcCell 1 [0, 5] [emptyOp, ⟨"VVA", 1, 2⟩] 1 [false, true]).2.getD 1 false = true ∧
    (calcCell 1 [0, 5] [emptyOp, ⟨"VVA", 1, 2⟩] 1 [false, true]).1.getD 1 0 = 3 := by
  decide

/-- C6 (amended): the arithmetic table of `calc` over the 16 codes. The stored
value becomes `operand1 op operand2` with each `C` slot resolved through the
value store — except a divide whose resolved divisor is zero, which keeps the
stale value.  The error flag becomes the OR of the cell-operand errors (plus
the divisor-is-zero disjunct for the divide codes) for every code with at
least one cell operand; the three literal-only codes `VVA`, `VVS`, `VVM`
leave the error flag unchanged instead of setting it to `false`. -/
theorem arith_table (cell : Nat) (database : List Int) (opers : List Ops)
    (lenH : Nat) (err : List Bool)
    (hcode : (opers.getD cell emptyOp).opcpde ∈ arithCodes)
    (hcd : cell < database.length) (hce : cell < err.length) :
    (calcCell cell database opers lenH err).1.getD cell 0 =
      (if charAt2 (opers.getD cell emptyOp).opcpde = some 'D' ∧
          slotValue (charAt1 (opers.getD cell emptyOp).opcpde)
            (opers.getD cell emptyOp).cell2 database = 0 then
        database.getD cell 0
      else
        arithResult (charAt2 (opers.getD cell emptyOp).opcpde)
          (slotValue (charAt0 (opers.getD cell emptyOp).opcpde)
            (opers.getD cell emptyOp).cell1 database)
          (slotValue (charAt1 (opers.getD cell emptyOp).opcpde)
            (opers.getD cell emptyOp).cell2 database)) ∧
    (calcCell cell database opers lenH err).2.getD cell false =
      (if charAt2 (opers.getD cell emptyOp).opcpde = some 'D' then
        (slotErr (charAt0 (opers.getD cell emptyOp).opcpde)
            (opers.getD cell emptyOp).cell1 err ||
          slotErr (charAt1 (opers.getD cell emptyOp).opcpde)
            (opers.getD cell emptyOp).cell2 err ||
          decide (slotValue (charAt1 (opers.getD cell emptyOp).opcpde)
            (opers.getD cell emptyOp).cell2 database = 0))
      else if charAt0 (opers.getD cell emptyOp).opcpde = some 'V' ∧
          charAt1 (opers.getD cell emptyOp).opcpde = some 'V' then
        err.getD cell false
      else
        slotErr (charAt0 (opers.getD cell emptyOp).opcpde)
            (opers.getD cell emptyOp).cell1 err ||
          slotErr (charAt1 (opers.getD cell emptyOp).opcpde)
            (opers.getD cell emptyOp).cell2 err) := by
  simp only [arithCodes, List.mem_cons, List.not_mem_nil, or_false] at hcode
  rcases hcode with h|h|h|h|h|h|h|h|h|h|h|h|h|h|h|h
  all_goals rw [h]
  all_goals simp only [List.getD_eq_getElem?_getD] at h
  all_goals simp [calcCell, h, charAt0, charAt1, charAt2, slotValue, slotErr,
    arithResult, ite_not, getElemD_set_self hcd, getElemD_set_self hce,
    List.getD_eq_getElem?_getD]
  all_goals try omega
  all_goals split_ifs with hz
  all_goals simp [hz, getElemD_set_self hcd, getElemD_set_self hce]

/-- Witness for `arith_table` on a concrete `CCA` state. -/
theorem arith_table_witness :
    (calcCell 3 [0, 10, 5, 0] [emptyOp, emptyOp, emptyOp, ⟨"CCA", 1, 2⟩] 3
      [false, true, false, false]).1.getD 3 0 = 15 ∧
    (calcCell 3 [0, 10, 5, 0] [emptyOp, emptyOp, emptyOp, ⟨"CCA", 1, 2⟩] 3
      [false, true, false, false]).2.getD 3 false = true := by
  have h := arith_table 3 [0, 10, 5, 0] [emptyOp, emptyOp, emptyOp, ⟨"CCA", 1, 2⟩] 3
    [false, true, false, false] (by decide) (by decide) (by decide)
  exact ⟨h.1.trans (by decide), h.2.trans (by decide)⟩

/-! ### C8: the `sum` range aggregate -/

theorem foldl_sum_or (l : List Nat) (db : List Int) (er : List Bool)
    (a : Int) (b : Bool) :
    l.foldl (fun p k => (p.1 + db.getD k 0, p.2 || er.getD k false)) (a, b) =
      (l.foldl (fun s k => s + db.getD k 0) a,
       l.foldl (fun s k => s || er.getD k false) b) := by
  induction l generalizing a b with
  | nil => rfl
  | cons x xs ih => simp only [List.foldl_cons]; exact ih _ _

theorem foldl_add_map {α : Type} (l : List α) (f : α → Int) (a : Int) :
    l.foldl (fun s k => s + f k) a = a + (l.map f).sum := by
  induction l generalizing a with
  | nil => simp
  | cons x xs ih => simp [ih, add_assoc]

theorem foldl_or_any {α : Type} (l : List α) (g : α → Bool) (b : Bool) :
    l.foldl (fun s k => s || g k) b = (b || l.any g) := by
  induction l generalizing b with
  | nil => simp
  | cons x xs ih => simp [ih, Bool.or_assoc]

theorem sum_flatMap_int {α : Type} (l : List α) (g : α → List Int) :
    (l.flatMap g).sum = (l.map fun a => (g a).sum).sum := by
  induction l with
  | nil => simp
  | cons x xs ih => simp [List.flatMap_cons, List.sum_append, ih]

theorem sum_map_range'_Ico (f : Nat → Int) :
    ∀ (n a : Nat), ((List.range' a n).map f).sum = ∑ k ∈ Finset.Ico a (a + n), f k := by
  intro n
  induction n with
  | zero => simp
  | succ n ih =>
    intro a
    rw [List.range'_succ, List.map_cons, List.sum_cons, ih (a + 1),
      Finset.sum_eq_sum_Ico_succ_bot (by omega : a < a + (n + 1)) f,
      show a + (n + 1) = a + 1 + n by omega]

theorem sum_map_rectCells (f : Nat × Nat → Int) (x1 x2 y1 y2 : Nat)
    (hx : x1 ≤ x2) (hy : y1 ≤ y2) :
    ((rectCells x1 x2 y1 y2).map f).sum =
      ∑ i ∈ Finset.Icc x1 x2, ∑ j ∈ Finset.Icc y1 y2, f (i, j) := by
  rw [rectCells, List.map_flatMap, sum_flatMap_int]
  have inner : ∀ i : Nat,
      (List.map f (List.map (fun j => (i, j)) (List.range' y1 (y2 + 1 - y1)))).sum =
        ∑ j ∈ Finset.Icc y1 y2, f (i, j) := by
    intro i
    rw [List.map_map]
    simp only [Function.comp_def]
    rw [sum_map_range'_Ico (fun j => f (i, j)) (y2 + 1 - y1) y1,
      show y1 + (y2 + 1 - y1) = y2 + 1 by omega, Nat.Ico_succ_right]
  simp only [inner]
  rw [sum_map_range'_Ico _ (x2 + 1 - x1) x1,
    show x1 + (x2 + 1 - x1) = x2 + 1 by omega, Nat.Ico_succ_right]

theorem mem_rectCells {x1 x2 y1 y2 i j : Nat} :
    (i, j) ∈ rectCells x1 x2 y1 y2 ↔ x1 ≤ i ∧ i ≤ x2 ∧ y1 ≤ j ∧ j ≤ y2 := by
  simp only [rectCells, List.mem_flatMap, List.mem_map, List.mem_range'_1]
  constructor
  · rintro ⟨a, ⟨ha1, ha2⟩, b, ⟨hb1, hb2⟩, hab⟩
    obtain ⟨rfl, rfl⟩ : a = i ∧ b = j := by
      constructor <;> (cases hab; rfl)
    omega
  · rintro ⟨h1, h2, h3, h4⟩
    exact ⟨i, by omega, j, by omega, rfl⟩

/-- C8: `sum` over a valid rectangle returns the sum of the value store over
every linear index inside the rectangle (inclusive), and writes into the
destination's error flag the OR of the error flags of every scanned cell; the
numeric result is computed and returned even when that OR is true (the value
equation below holds unconditionally). -/
theorem sum_rectangle (cols rows col1 col2 row1 row2 dest : Nat)
    (database : List Int) (err : List Bool)
    (h11 : 1 ≤ col1) (h12 : col1 ≤ col2) (h13 : col2 ≤ cols)
    (h21 : 1 ≤ row1) (h22 : row1 ≤ row2) (h23 : row2 ≤ rows) :
    (sum (col1 + (row1 - 1) * cols) (col2 + (row2 - 1) * cols) database cols err
        dest).1 =
      (∑ i ∈ Finset.Icc col1 col2, ∑ j ∈ Finset.Icc row1 row2,
        database.getD (i + (j - 1) * cols) 0) ∧
    ∃ b : Bool,
      (sum (col1 + (row1 - 1) * cols) (col2 + (row2 - 1) * cols) database cols err
        dest).2 = err.set dest b ∧
      (b = true ↔ ∃ i ∈ Finset.Icc col1 col2, ∃ j ∈ Finset.Icc row1 row2,
        err.getD (i + (j - 1) * cols) false = true) := by
  have e1 : rectOf (col1 + (row1 - 1) * cols) cols = (col1, row1) :=
    rectOf_linear h11 (le_trans h12 h13) h21
  have e2 : rectOf (col2 + (row2 - 1) * cols) cols = (col2, row2) :=
    rectOf_linear (by omega) h13 (by omega)
  simp only [sum, e1, e2]
  rw [foldl_sum_or]
  constructor
  · rw [foldl_add_map, rectIdx, List.map_map]
    simp only [Function.comp_def, zero_add]
    rw [sum_map_rectCells _ _ _ _ _ h12 h22]
  · refine ⟨_, rfl, ?_⟩
    rw [foldl_or_any]
    simp only [Bool.false_or, List.any_eq_true]
    constructor
    · rintro ⟨k, hk, hflag⟩
      rw [rectIdx, List.mem_map] at hk
      obtain ⟨⟨i, j⟩, hmem, rfl⟩ := hk
      rw [mem_rectCells] at hmem
      exact ⟨i, Finset.mem_Icc.mpr ⟨hmem.1, hmem.2.1⟩, j,
        Finset.mem_Icc.mpr ⟨hmem.2.2.1, hmem.2.2.2⟩, hflag⟩
    · rintro ⟨i, hi, j, hj, hflag⟩
      rw [Finset.mem_Icc] at hi hj
      refine ⟨i + (j - 1) * cols, ?_, hflag⟩
      rw [rectIdx, List.mem_map]
      exact ⟨(i, j), mem_rectCells.mpr ⟨hi.1, hi.2, hj.1, hj.2⟩, rfl⟩

/-- Witness for `sum_rectangle`: the 2-by-2 rectangle from (1,1) to (2,2) in a
2-wide grid sums cells 1, 2, 3, 4 and ORs their error flags. -/
theorem sum_rectangle_witness :
    (sum (1 + (1 - 1) * 2) (2 + (2 - 1) * 2) [0, 10, 20, 30, 40] 2
        [false, false, true, false, false] 0).1 =
      (∑ i ∈ Finset.Icc 1 2, ∑ j ∈ Finset.Icc 1 2,
        ([0, 10, 20, 30, 40] : List Int).getD (i + (j - 1) * 2) 0) ∧
    ∃ b : Bool,
      (sum (1 + (1 - 1) * 2) (2 + (2 - 1) * 2) [0, 10, 20, 30, 40] 2
        [false, false, true, false, false] 0).2 =
        ([false, false, true, false, false] : List Bool).set 0 b ∧
      (b = true ↔ ∃ i ∈ Finset.Icc 1 2, ∃ j ∈ Finset.Icc 1 2,
        ([false, false, true, false, false] : List Bool).getD (i + (j - 1) * 2)
          false = true) :=
  sum_rectangle 2 2 1 2 1 2 0 [0, 10, 20, 30, 40] [false, false, true, false, false]
    (by decide) (by decide) (by decide) (by decide) (by decide) (by decide)

/-! ### C1: cycle rejection is not a no-op (failing input) -/

/-- C1 (code bug, evaluated at the failing input): in a 3-column grid where
cell 3 reads cell 1 (`opers[3] = CVA 1 1`, so `sensi[1] = [3]`) and cell 1
reads cell 2 (`opers[1] = CVA 2 1`, so `sensi[2] = [1]`), the edit
`cell 2 = CVA 1 1` is detected as a cycle and rejected (status 0); the value
store, error store, indegree workspace and the target's operation are all
restored — but `sensi[1]` comes back as `[3, 2]` instead of `[3]`: the
rejection path checks `sensi[1].first()` (which is `3`) instead of its last
element before popping, so the freshly pushed edge `2` survives the rollback
and the rejected edit is observable. -/
theorem cycle_rejection_rollback_bug :
    ((cellUpdate 2 "CVA" 1 1 [0, 0, 0, 0] [[], [3], [1], []]
        [emptyOp, ⟨"CVA", 2, 1⟩, emptyOp, ⟨"CVA", 1, 1⟩] 3 [0, 0, 0, 0]
        [false, false, false, false] 20).map fun r => (r.1, r.2.1, r.2.2.1)) =
      some (0, [0, 0, 0, 0], [[], [3, 2], [1], []]) ∧
    ((cellUpdate 2 "CVA" 1 1 [0, 0, 0, 0] [[], [3], [1], []]
        [emptyOp, ⟨"CVA", 2, 1⟩, emptyOp, ⟨"CVA", 1, 1⟩] 3 [0, 0, 0, 0]
        [false, false, false, false] 20).map fun r =>
      (r.2.2.2.1, r.2.2.2.2.1, r.2.2.2.2.2)) =
      some ([emptyOp, ⟨"CVA", 2, 1⟩, emptyOp, ⟨"CVA", 1, 1⟩], [0, 0, 0, 0],
        [false, false, false, false]) ∧
    ([[], [3, 2], [1], []] : List (List Nat)) ≠ [[], [3], [1], []] := by
  refine ⟨by decide, by decide, by decide⟩

/-! ### C7: sensitivity-list multiplicity -/

/-- C7 counterexample: committing the edit `cell 3 = CCA 1 1` (the operation
`y = x + x`, reading cell 1 twice) contributes a single entry of 3 to
`sensi[1]`, not the two entries the claim requires: the edge-addition phase
pushes only when the list's last element is not already the target. -/
theorem sensi_duplicate_read_cex :
    ((cellUpdate 3 "CCA" 1 1 [0, 0, 0, 0] [[], [], [], []]
        [emptyOp, emptyOp, emptyOp, emptyOp] 3 [0, 0, 0, 0]
        [false, false, false, false] 20).map fun r =>
      (r.1, (r.2.2.1.getD 1 []).count 3)) = some (1, 1) ∧ (1 : Nat) ≠ 2 := by
  refine ⟨by decide, by decide⟩

theorem getD_replicate {α} {n i : Nat} {a : α} : (List.replicate n a).getD i a = a := by
  rw [List.getD_eq_getElem?_getD, List.getElem?_replicate]
  split <;> rfl

theorem sensiRemoveOld_empty (code : String) (c1 c2 : Int) (t l : Nat)
    (s : List (List Nat)) : sensiRemoveOld emptyOp code c1 c2 t l s = s := by
  have e1 : startsWithC emptyOp.opcpde = false := by decide
  have e2 : charAt1 emptyOp.opcpde = none := by decide
  have e3 : isRangeCode emptyOp.opcpde = false := by decide
  have e4 : emptyOp.opcpde ≠ "EQC" := by decide
  have e5 : emptyOp.opcpde ≠ "SLC" := by decide
  simp [sensiRemoveOld, e1, e2, e3, e4, e5]

theorem sensiRemoveOld_CCA (c1 c2 d1 d2 : Int) (code : String) (t l : Nat)
    (s : List (List Nat)) :
    sensiRemoveOld ⟨"CCA", c1, c2⟩ code d1 d2 t l s =
      removeAll (removeAll s c1.toNat t) c2.toNat t := by
  have e1 : startsWithC "CCA" = true := by decide
  have e2 : charAt1 "CCA" = some 'C' := by decide
  have e3 : isRangeCode "CCA" = false := by decide
  have e4 : ("CCA" : String) ≠ "EQC" := by decide
  have e5 : ("CCA" : String) ≠ "SLC" := by decide
  simp [sensiRemoveOld, e1, e2, e3, e4, e5]

theorem sensiAddNew_CCA (c1 c2 : Int) (rev : Ops) (t l : Nat)
    (s : List (List Nat)) :
    sensiAddNew "CCA" c1 c2 rev t l s =
      pushIfNew (pushIfNew s c1.toNat t) c2.toNat t := by
  have e1 : startsWithC "CCA" = true := by decide
  have e2 : charAt1 "CCA" = some 'C' := by decide
  have e3 : isRangeCode "CCA" = false := by decide
  have e4 : ("CCA" : String) ≠ "EQC" := by decide
  have e5 : ("CCA" : String) ≠ "SLC" := by decide
  simp [sensiAddNew, e1, e2, e3, e4, e5]

theorem sensiAddNew_EQV (c1 c2 : Int) (rev : Ops) (t l : Nat)
    (s : List (List Nat)) : sensiAddNew "EQV" c1 c2 rev t l s = s := by
  have e1 : startsWithC "EQV" = false := by decide
  have e2 : charAt1 "EQV" = some 'Q' := by decide
  have e3 : isRangeCode "EQV" = false := by decide
  have e4 : ("EQV" : String) ≠ "EQC" := by decide
  have e5 : ("EQV" : String) ≠ "SLC" := by decide
  simp [sensiAddNew, e1, e2, e3, e4, e5]

theorem pushIfNew_nil {s : List (List Nat)} {c t : Nat} (h : s.getD c [] = []) :
    pushIfNew s c t = s.set c [t] := by
  rw [List.getD_eq_getElem?_getD] at h
  simp [pushIfNew, List.getD_eq_getElem?_getD, h]

theorem pushIfNew_last {s : List (List Nat)} {c t : Nat}
    (h : (s.getD c []).getLast? = some t) :
    pushIfNew s c t = s := by
  rw [List.getD_eq_getElem?_getD] at h
  have hne : ¬ s[c]?.getD [] = [] := by
    intro he
    rw [he] at h
    simp at h
  simp [pushIfNew, List.getD_eq_getElem?_getD, h, hne]

theorem topoSort_isolated (adj : List (List Nat)) (y : Nat) (ind : List Int) (f : Nat)
    (h : adj.getD y [] = []) :
    topoSort adj y ind (f + 2) = some ([1, (y : Int)], ind) := by
  rw [List.getD_eq_getElem?_getD] at h
  show topoSort adj y ind ((f + 1) + 1) = _
  simp [topoSort, phaseA, kahnLoop, visitEdges, drainEdges,
    List.getD_eq_getElem?_getD, h]

/-- C7 (amended): duplicate reads contribute a single sensitivity entry, and
replacing an operation removes every matching entry.  Starting from an empty
grid, committing `y = CCA x x` (the operation `y = x + x`, reading `x` twice)
leaves exactly ONE entry of `y` in `sensi[x]` — the edge-addition phase pushes
only when the list's last element is not already the target — and the
follow-up edit `y = EQV 7` removes ALL matching entries (the removal phase is
a `retain`, not a single pop), leaving `sensi[x]` empty. -/
theorem sensi_entries_amended (n x y lenH f : Nat) (database : List Int)
    (err : List Bool) (hx : x < n) (hy : y < n) (hxy : x ≠ y) :
    cellUpdate y "CCA" x x database (List.replicate n []) (List.replicate n emptyOp)
        lenH (List.replicate n 0) err (f + 2) =
      some (1,
        (valUpdate [1, (y : Int)] database
          ((List.replicate n emptyOp).set y ⟨"CCA", (x : Int), (x : Int)⟩) lenH err).1,
        (List.replicate n ([] : List Nat)).set x [y],
        (List.replicate n emptyOp).set y ⟨"CCA", (x : Int), (x : Int)⟩,
        List.replicate n 0,
        (valUpdate [1, (y : Int)] database
          ((List.replicate n emptyOp).set y ⟨"CCA", (x : Int), (x : Int)⟩) lenH err).2) ∧
    (∀ db1 err1,
      cellUpdate y "EQV" 7 0 db1 ((List.replicate n ([] : List Nat)).set x [y])
          ((List.replicate n emptyOp).set y ⟨"CCA", (x : Int), (x : Int)⟩)
          lenH (List.replicate n 0) err1 (f + 2) =
        some (1,
          (valUpdate [1, (y : Int)] db1
            (((List.replicate n emptyOp).set y ⟨"CCA", (x : Int), (x : Int)⟩).set y
              ⟨"EQV", 7, 0⟩) lenH err1).1,
          (List.replicate n ([] : List Nat)).set x [],
          ((List.replicate n emptyOp).set y ⟨"CCA", (x : Int), (x : Int)⟩).set y
            ⟨"EQV", 7, 0⟩,
          List.replicate n 0,
          (valUpdate [1, (y : Int)] db1
            (((List.replicate n emptyOp).set y ⟨"CCA", (x : Int), (x : Int)⟩).set y
              ⟨"EQV", 7, 0⟩) lenH err1).2)) ∧
    (((List.replicate n ([] : List Nat)).set x [y]).getD x []).count y = 1 ∧
    (((List.replicate n ([] : List Nat)).set x []).getD x []).count y = 0 := by
  have hlenx : x < (List.replicate n ([] : List Nat)).length := by simpa using hx
  have hleny : y < (List.replicate n emptyOp).length := by simpa using hy
  refine ⟨?_, ?_, ?_, ?_⟩
  · have hsy : ((List.replicate n ([] : List Nat)).set x [y]).getD y [] = [] := by
      rw [getD_set_ne hxy, getD_replicate]
    have hp1 : pushIfNew (List.replicate n ([] : List Nat)) x y =
        (List.replicate n ([] : List Nat)).set x [y] :=
      pushIfNew_nil getD_replicate
    have hp2 : pushIfNew ((List.replicate n ([] : List Nat)).set x [y]) x y =
        (List.replicate n ([] : List Nat)).set x [y] :=
      pushIfNew_last (by rw [getD_set_self hlenx]; rfl)
    simp only [cellUpdate, getD_replicate]
    rw [sensiRemoveOld_empty, sensiAddNew_CCA]
    simp only [Int.toNat_natCast]
    rw [hp1, hp2, topoSort_isolated _ _ _ _ hsy]
    norm_num
  · intro db1 err1
    have hr1 : removeAll ((List.replicate n ([] : List Nat)).set x [y]) x y =
        (List.replicate n ([] : List Nat)).set x [] := by
      simp [removeAll, getElemD_set_self hlenx, List.getD_eq_getElem?_getD,
        List.set_set]
    have hr2 : removeAll ((List.replicate n ([] : List Nat)).set x []) x y =
        (List.replicate n ([] : List Nat)).set x [] := by
      simp [removeAll, getElemD_set_self hlenx, List.getD_eq_getElem?_getD,
        List.set_set]
    have hsy : ((List.replicate n ([] : List Nat)).set x []).getD y [] = [] := by
      rw [getD_set_ne hxy, getD_replicate]
    simp only [cellUpdate, getD_set_self hleny]
    rw [sensiRemoveOld_CCA]
    simp only [Int.toNat_natCast]
    rw [hr1, hr2, sensiAddNew_EQV, topoSort_isolated _ _ _ _ hsy]
    norm_num
  · rw [getD_set_self hlenx]
    simp
  · rw [getD_set_self hlenx]
    simp

/-- Witness for `sensi_entries_amended` at a concrete 4-cell, 3-column grid. -/
theorem sensi_entries_amended_witness :
    (((List.replicate 4 ([] : List Nat)).set 1 [3]).getD 1 []).count 3 = 1 ∧
    (((List.replicate 4 ([] : List Nat)).set 1 []).getD 1 []).count 3 = 0 := by
  have h := sensi_entries_amended 4 1 3 3 18 [0, 0, 0, 0] [false, false, false, false]
    (by decide) (by decide) (by decide)
  exact ⟨h.2.2.1, h.2.2.2⟩


/-! ### The `topo_sort` loop invariants and specification -/

theorem walkPre_ne_cell {adj : List (List Nat)} {cell x c : Nat}
    (h : c ∈ walkPre adj cell x) : c ≠ cell := by
  have := List.mem_takeWhile_imp h
  simpa using this

theorem takeWhile_eq_self_of_not_mem {cell : Nat} {es : List Nat} (h : cell ∉ es) :
    (es.takeWhile fun c => c ≠ cell) = es := by
  induction es with
  | nil => rfl
  | cons c cs ih =>
    have hc : c ≠ cell := fun hc => h (hc ▸ List.mem_cons_self c cs)
    rw [List.takeWhile_cons, if_pos (by simpa using hc),
      ih fun hm => h (List.mem_cons_of_mem c hm)]

theorem mem_walkPre_of_not_cell {adj : List (List Nat)} {cell x : Nat}
    (h : cell ∉ adj.getD x []) : ∀ c ∈ adj.getD x [], c ∈ walkPre adj cell x := by
  intro c hc
  rw [walkPre, takeWhile_eq_self_of_not_mem h]
  exact hc

/-- The edge walk stops at the first edge back to `cell`: the result is that of
walking the prefix before it, with the cycle flag recording whether such an
edge exists. -/
theorem visitEdges_eq_takeWhile (cell : Nat) (es q : List Nat) (ind : List Int) :
    visitEdges cell es q ind =
      ((visitEdges cell (es.takeWhile fun c => c ≠ cell) q ind).1,
       (visitEdges cell (es.takeWhile fun c => c ≠ cell) q ind).2.1,
       decide (cell ∈ es)) := by
  induction es generalizing q ind with
  | nil => simp [visitEdges]
  | cons c cs ih =>
    by_cases hc : c = cell
    · subst hc
      simp [visitEdges, List.takeWhile_cons]
    · have hmem : (cell ∈ c :: cs) ↔ (cell ∈ cs) := by
        simp [List.mem_cons, (Ne.symm hc : cell ≠ c)]
      rw [List.takeWhile_cons, if_pos (by simpa using hc)]
      simp only [visitEdges, if_neg hc, hmem]
      exact ih _ _

theorem visitEdges_flag_false (cell : Nat) {es : List Nat} (hnc : cell ∉ es) :
    ∀ (q : List Nat) (ind : List Int), (visitEdges cell es q ind).2.2 = false := by
  induction es with
  | nil => intro q ind; rfl
  | cons c cs ih =>
    intro q ind
    have hc : ¬ c = cell := fun h => hnc (h ▸ List.mem_cons_self c cs)
    simp only [visitEdges, if_neg hc]
    exact ih (fun h => hnc (List.mem_cons_of_mem c h)) _ _

theorem visitEdges_length (cell : Nat) (es : List Nat) :
    ∀ (q : List Nat) (ind : List Int),
      (visitEdges cell es q ind).2.1.length = ind.length := by
  induction es with
  | nil => intro q ind; rfl
  | cons c cs ih =>
    intro q ind
    by_cases hc : c = cell
    · simp [visitEdges, hc]
    · simp only [visitEdges, if_neg hc]
      rw [ih]
      exact List.length_set ind c _

theorem getD_set_incr (ind : List Int) (c v : Nat) (hc : c < ind.length) :
    (ind.set c (ind.getD c 0 + 1)).getD v 0 =
      ind.getD v 0 + if v = c then 1 else 0 := by
  by_cases h : v = c
  · subst h
    rw [getD_set_self hc, if_pos rfl]
  · rw [getD_set_ne fun he => h he.symm, if_neg h, add_zero]

theorem getD_le_set_incr (ind : List Int) (c : Nat) :
    ∀ v, ind.getD v 0 ≤ (ind.set c (ind.getD c 0 + 1)).getD v 0 := by
  intro v
  by_cases hcl : c < ind.length
  · rw [getD_set_incr ind c v hcl]
    split <;> omega
  · rw [List.set_eq_of_length_le (le_of_not_lt hcl)]

theorem visitEdges_count (cell : Nat) {es : List Nat} (hnc : cell ∉ es) :
    ∀ (q : List Nat) (ind : List Int), (∀ c ∈ es, c < ind.length) →
      ∀ v, (visitEdges cell es q ind).2.1.getD v 0 =
        ind.getD v 0 + (es.count v : Int) := by
  induction es with
  | nil => intro q ind _ v; simp [visitEdges]
  | cons c cs ih =>
    intro q ind hwf v
    have hc : ¬ c = cell := fun h => hnc (h ▸ List.mem_cons_self c cs)
    have hclen : c < ind.length := hwf c (List.mem_cons_self c cs)
    simp only [visitEdges, if_neg hc]
    rw [ih (fun h => hnc (List.mem_cons_of_mem c h)) _ _
      (fun d hd => by rw [List.length_set]; exact hwf d (List.mem_cons_of_mem c hd)) v]
    rw [getD_set_incr ind c v hclen]
    by_cases h : v = c
    · subst h
      rw [List.count_cons_self, if_pos rfl]
      push_cast
      omega
    · rw [List.count_cons_of_ne h, if_neg h]
      omega

theorem visitEdges_mono (cell : Nat) (es : List Nat) :
    ∀ (q : List Nat) (ind : List Int) (v : Nat),
      ind.getD v 0 ≤ (visitEdges cell es q ind).2.1.getD v 0 := by
  induction es with
  | nil => intro q ind v; exact le_refl _
  | cons c cs ih =>
    intro q ind v
    by_cases hc : c = cell
    · simp [visitEdges, hc]
    · simp only [visitEdges, if_neg hc]
      exact le_trans (getD_le_set_incr ind c v) (ih _ _ v)

theorem visitEdges_queue (cell : Nat) {es : List Nat} (hnc : cell ∉ es) :
    ∀ (q : List Nat) (ind : List Int), (∀ c ∈ es, c < ind.length) →
      (∀ u, 0 ≤ ind.getD u 0) →
      ∃ newly, (visitEdges cell es q ind).1 = q ++ newly ∧ newly.Nodup ∧
        ∀ v, v ∈ newly ↔ v ∈ es ∧ ind.getD v 0 = 0 := by
  induction es with
  | nil =>
    intro q ind _ _
    exact ⟨[], by simp [visitEdges], List.nodup_nil, by simp⟩
  | cons c cs ih =>
    intro q ind hwf hnn
    have hc : ¬ c = cell := fun h => hnc (h ▸ List.mem_cons_self c cs)
    have hclen : c < ind.length := hwf c (List.mem_cons_self c cs)
    have hnc' : cell ∉ cs := fun h => hnc (List.mem_cons_of_mem c h)
    have hwf' : ∀ d ∈ cs, d < (ind.set c (ind.getD c 0 + 1)).length := by
      intro d hd
      rw [List.length_set]
      exact hwf d (List.mem_cons_of_mem c hd)
    have hnn' : ∀ u, 0 ≤ (ind.set c (ind.getD c 0 + 1)).getD u 0 :=
      fun u => le_trans (hnn u) (getD_le_set_incr ind c u)
    have hc1 : (ind.set c (ind.getD c 0 + 1)).getD c 0 = ind.getD c 0 + 1 :=
      getD_set_self hclen
    simp only [visitEdges, if_neg hc]
    by_cases h0 : ind.getD c 0 = 0
    · rw [if_pos h0]
      obtain ⟨newly, hq, hnd, hmem⟩ := ih hnc' (q ++ [c]) _ hwf' hnn'
      refine ⟨c :: newly, by rw [hq]; simp, ?_, ?_⟩
      · refine List.Nodup.cons (fun hcm => ?_) hnd
        have := (hmem c).1 hcm
        omega
      · intro v
        rw [List.mem_cons, hmem v]
        by_cases hvc : v = c
        · subst hvc
          exact ⟨fun _ => ⟨List.mem_cons_self v cs, h0⟩, fun _ => Or.inl rfl⟩
        · have hne : (ind.set c (ind.getD c 0 + 1)).getD v 0 = ind.getD v 0 :=
            getD_set_ne fun he => hvc he.symm
          rw [hne, List.mem_cons]
          constructor
          · rintro (h | ⟨h1, h2⟩)
            · exact absurd h hvc
            · exact ⟨Or.inr h1, h2⟩
          · rintro ⟨h1 | h1, h2⟩
            · exact absurd h1 hvc
            · exact Or.inr ⟨h1, h2⟩
    · rw [if_neg h0]
      obtain ⟨newly, hq, hnd, hmem⟩ := ih hnc' q _ hwf' hnn'
      refine ⟨newly, hq, hnd, ?_⟩
      intro v
      rw [hmem v, List.mem_cons]
      by_cases hvc : v = c
      · subst hvc
        rw [hc1]
        constructor
        · rintro ⟨-, h⟩
          have := hnn v
          omega
        · rintro ⟨-, h⟩
          exact absurd h h0
      · have hne : (ind.set c (ind.getD c 0 + 1)).getD v 0 = ind.getD v 0 :=
          getD_set_ne fun he => hvc he.symm
        rw [hne]
        constructor
        · rintro ⟨h1, h2⟩
          exact ⟨Or.inr h1, h2⟩
        · rintro ⟨h1 | h1, h2⟩
          · exact absurd h1 hvc
          · exact ⟨h1, h2⟩

theorem Wit.mono {adj : List (List Nat)} {cell : Nat} {ind ind' : List Int}
    (h : ∀ u, ind.getD u 0 ≤ ind'.getD u 0) :
    ∀ {x v : Nat}, Wit adj cell ind x v → Wit adj cell ind' x v := by
  intro x v hw
  induction hw with
  | single h1 => exact Wit.single h1
  | cons h1 h2 _ ih => exact Wit.cons h1 (lt_of_lt_of_le h2 (h _)) ih

theorem Wit.snoc {adj : List (List Nat)} {cell : Nat} {ind : List Int}
    {a x u : Nat} (hw : Wit adj cell ind a x) :
    0 < ind.getD x 0 → u ∈ walkPre adj cell x → Wit adj cell ind a u := by
  induction hw with
  | single h1 =>
    intro hx hu
    exact Wit.cons h1 hx (Wit.single hu)
  | cons h1 h2 _ ih =>
    intro hx hu
    exact Wit.cons h1 h2 (ih hx hu)

theorem visitEdges_wit (adj : List (List Nat)) (cell : Nat) {x : Nat} :
    ∀ {es : List Nat}, (∀ c ∈ es, c ∈ walkPre adj cell x) →
    ∀ (q : List Nat) (ind : List Int),
      (x = cell ∨ 0 < ind.getD x 0) →
      (∀ v, 0 < ind.getD v 0 → Wit adj cell ind cell v) →
      ∀ v, 0 < (visitEdges cell es q ind).2.1.getD v 0 →
        Wit adj cell (visitEdges cell es q ind).2.1 cell v := by
  intro es
  induction es with
  | nil => intro _ q ind _ hinv v; exact hinv v
  | cons c cs ih =>
    intro hsub q ind hx hinv v hv
    have hcW : c ∈ walkPre adj cell x := hsub c (List.mem_cons_self c cs)
    have hc : ¬ c = cell := walkPre_ne_cell hcW
    simp only [visitEdges, if_neg hc] at hv ⊢
    have hmono : ∀ u, ind.getD u 0 ≤ (ind.set c (ind.getD c 0 + 1)).getD u 0 :=
      getD_le_set_incr ind c
    refine ih (fun d hd => hsub d (List.mem_cons_of_mem c hd)) _ _
      (hx.imp id fun h => lt_of_lt_of_le h (hmono x)) ?_ v hv
    intro u hu
    by_cases huc : u = c
    · subst huc
      rcases hx with hxc | hxpos
      · subst hxc
        exact Wit.single hcW
      · exact Wit.snoc (Wit.mono hmono (hinv x hxpos))
          (lt_of_lt_of_le hxpos (hmono x)) hcW
    · have he : (ind.set c (ind.getD c 0 + 1)).getD u 0 = ind.getD u 0 :=
        getD_set_ne fun heq => huc heq.symm
      exact Wit.mono hmono (hinv u (by rwa [he] at hu))

/-! ### Lemmas about `zeroEdges` and `drainEdges` -/

theorem drainEdges_length (es : List Nat) :
    ∀ (q : List Nat) (ind : List Int),
      (drainEdges es q ind).2.length = ind.length := by
  induction es with
  | nil => intro q ind; rfl
  | cons c cs ih =>
    intro q ind
    simp only [drainEdges]
    rw [ih, List.length_set]

theorem drainEdges_count {es : List Nat} :
    ∀ (q : List Nat) (ind : List Int), (∀ c ∈ es, c < ind.length) →
      ∀ v, (drainEdges es q ind).2.getD v 0 = ind.getD v 0 - (es.count v : Int) := by
  induction es with
  | nil => intro q ind _ v; simp [drainEdges]
  | cons c cs ih =>
    intro q ind hwf v
    have hclen : c < ind.length := hwf c (List.mem_cons_self c cs)
    simp only [drainEdges]
    rw [ih _ _
      (fun d hd => by rw [List.length_set]; exact hwf d (List.mem_cons_of_mem c hd)) v]
    by_cases h : v = c
    · subst h
      rw [getD_set_self hclen, List.count_cons_self]
      push_cast
      ring
    · rw [getD_set_ne fun he => h he.symm, List.count_cons_of_ne h]

/-- Queue effect of the Kahn inner loop: newly enqueued nodes are exactly
those whose indegree entry is positive and at most the number of edges walked
into them (the entry reaches exactly zero mid-walk). -/
theorem drainEdges_queue {es : List Nat} :
    ∀ (q : List Nat) (ind : List Int), (∀ c ∈ es, c < ind.length) →
      ∃ newly, (drainEdges es q ind).1 = q ++ newly ∧ newly.Nodup ∧
        ∀ v, v ∈ newly ↔ 0 < ind.getD v 0 ∧ ind.getD v 0 ≤ (es.count v : Int) := by
  induction es with
  | nil =>
    intro q ind _
    refine ⟨[], by simp [drainEdges], List.nodup_nil, ?_⟩
    intro v
    simp only [List.not_mem_nil, false_iff, List.count_nil]
    push_cast
    omega
  | cons c cs ih =>
    intro q ind hwf
    have hclen : c < ind.length := hwf c (List.mem_cons_self c cs)
    have hwf' : ∀ d ∈ cs, d < (ind.set c (ind.getD c 0 - 1)).length := by
      intro d hd
      rw [List.length_set]
      exact hwf d (List.mem_cons_of_mem c hd)
    have hcv : (ind.set c (ind.getD c 0 - 1)).getD c 0 = ind.getD c 0 - 1 :=
      getD_set_self hclen
    simp only [drainEdges]
    by_cases h1 : ind.getD c 0 - 1 = 0
    · rw [if_pos h1]
      obtain ⟨newly, hq, hnd, hmem⟩ := ih (q ++ [c]) _ hwf'
      refine ⟨c :: newly, by rw [hq]; simp, ?_, ?_⟩
      · refine List.Nodup.cons (fun hcm => ?_) hnd
        have := (hmem c).1 hcm
        rw [hcv] at this
        omega
      · intro v
        rw [List.mem_cons, hmem v]
        by_cases hvc : v = c
        · subst hvc
          rw [hcv]
          have : (1 : Int) ≤ ((v :: cs).count v : Int) := by
            rw [List.count_cons_self]
            push_cast
            omega
          constructor
          · intro _
            omega
          · intro _
            exact Or.inl rfl
        · rw [getD_set_ne fun he => hvc he.symm, List.count_cons_of_ne hvc]
          constructor
          · rintro (h | h)
            · exact absurd h hvc
            · exact h
          · exact Or.inr
    · rw [if_neg h1]
      obtain ⟨newly, hq, hnd, hmem⟩ := ih q _ hwf'
      refine ⟨newly, hq, hnd, ?_⟩
      intro v
      rw [hmem v]
      by_cases hvc : v = c
      · subst hvc
        rw [hcv, List.count_cons_self]
        push_cast
        omega
      · rw [getD_set_ne fun he => hvc he.symm, List.count_cons_of_ne hvc]

/-- The Kahn inner loop never raises an indegree entry. -/
theorem drainEdges_mono (es : List Nat) :
    ∀ (q : List Nat) (ind : List Int) (v : Nat),
      (drainEdges es q ind).2.getD v 0 ≤ ind.getD v 0 := by
  induction es with
  | nil => intro q ind v; exact le_refl _
  | cons c cs ih =>
    intro q ind v
    simp only [drainEdges]
    refine le_trans (ih _ _ v) ?_
    by_cases hcl : c < ind.length
    · by_cases hvc : v = c
      · subst hvc
        rw [getD_set_self hcl]
        omega
      · rw [getD_set_ne fun he => hvc he.symm]
    · rw [List.set_eq_of_length_le (le_of_not_lt hcl)]

/-- Queue effect of the Kahn inner loop, hypothesis-free form for the fuel
bound: the newly enqueued nodes are distinct, were positive on entry, and are
nonpositive on exit. -/
theorem drainEdges_queue_sub (es : List Nat) :
    ∀ (q : List Nat) (ind : List Int),
      ∃ newly, (drainEdges es q ind).1 = q ++ newly ∧ newly.Nodup ∧
        ∀ v ∈ newly, 0 < ind.getD v 0 ∧ (drainEdges es q ind).2.getD v 0 ≤ 0 := by
  induction es with
  | nil =>
    intro q ind
    exact ⟨[], by simp [drainEdges], List.nodup_nil, by simp⟩
  | cons c cs ih =>
    intro q ind
    simp only [drainEdges]
    by_cases h1 : ind.getD c 0 - 1 = 0
    · have hclen : c < ind.length := by
        by_contra hcl
        rw [List.getD_eq_getElem?_getD, List.getElem?_eq_none (le_of_not_lt hcl)] at h1
        simp at h1
      have hcv : (ind.set c (ind.getD c 0 - 1)).getD c 0 = 0 := by
        rw [getD_set_self hclen, h1]
      rw [if_pos h1]
      obtain ⟨newly, hq, hnd, hmem⟩ := ih (q ++ [c]) (ind.set c (ind.getD c 0 - 1))
      refine ⟨c :: newly, by rw [hq]; simp, ?_, ?_⟩
      · refine List.Nodup.cons (fun hcm => ?_) hnd
        have := (hmem c hcm).1
        omega
      · intro v hv
        rcases List.mem_cons.1 hv with hvc | hvn
        · subst hvc
          refine ⟨by omega, ?_⟩
          refine le_trans (drainEdges_mono cs _ _ v) ?_
          rw [hcv]
        · obtain ⟨hpos, hfin⟩ := hmem v hvn
          refine ⟨?_, hfin⟩
          by_cases hvc : v = c
          · subst hvc
            rw [hcv] at hpos
            omega
          · rwa [getD_set_ne fun he => hvc he.symm] at hpos
    · rw [if_neg h1]
      obtain ⟨newly, hq, hnd, hmem⟩ := ih q (ind.set c (ind.getD c 0 - 1))
      refine ⟨newly, hq, hnd, ?_⟩
      intro v hv
      obtain ⟨hpos, hfin⟩ := hmem v hv
      refine ⟨?_, hfin⟩
      by_cases hvc : v = c
      · subst hvc
        by_cases hcl : v < ind.length
        · rw [getD_set_self hcl] at hpos
          omega
        · rwa [List.set_eq_of_length_le (le_of_not_lt hcl)] at hpos
      · rwa [getD_set_ne fun he => hvc he.symm] at hpos

/-- The Kahn inner loop creates no new positive entries. -/
theorem drainEdges_pos (es : List Nat) :
    ∀ (q : List Nat) (ind : List Int) (v : Nat),
      0 < (drainEdges es q ind).2.getD v 0 → 0 < ind.getD v 0 := by
  intro q ind v h
  exact lt_of_lt_of_le h (drainEdges_mono es q ind v)

/-- A nonpositive indegree entry stays nonpositive through the cycle-path
inner loop (entries are only overwritten with zero). -/
theorem zeroEdges_nonpos (cell : Nat) (es : List Nat) :
    ∀ (q : List Nat) (ind : List Int) (v : Nat), ind.getD v 0 ≤ 0 →
      (zeroEdges cell es q ind).2.getD v 0 ≤ 0 := by
  induction es with
  | nil => intro q ind v h; exact h
  | cons c cs ih =>
    intro q ind v h
    by_cases hc : c = cell
    · simpa [zeroEdges, hc] using h
    · simp only [zeroEdges, if_neg hc]
      refine ih _ _ v ?_
      by_cases hcl : c < ind.length
      · by_cases hvc : v = c
        · subst hvc
          rw [getD_set_self hcl]
        · rwa [getD_set_ne fun he => hvc he.symm]
      · rwa [List.set_eq_of_length_le (le_of_not_lt hcl)]

/-- The cycle-path inner loop creates no new positive entries. -/
theorem zeroEdges_pos (cell : Nat) (es : List Nat) :
    ∀ (q : List Nat) (ind : List Int) (v : Nat),
      0 < (zeroEdges cell es q ind).2.getD v 0 → 0 < ind.getD v 0 := by
  induction es with
  | nil => intro q ind v h; exact h
  | cons c cs ih =>
    intro q ind v h
    by_cases hc : c = cell
    · simpa [zeroEdges, hc] using h
    · simp only [zeroEdges, if_neg hc] at h
      have h' := ih _ _ v h
      by_cases hcl : c < ind.length
      · by_cases hvc : v = c
        · subst hvc
          rw [getD_set_self hcl] at h'
          omega
        · rwa [getD_set_ne fun he => hvc he.symm] at h'
      · rwa [List.set_eq_of_length_le (le_of_not_lt hcl)] at h'

/-- Queue effect of the cycle-path inner loop, hypothesis-free form for the
fuel bound. -/
theorem zeroEdges_queue_sub (cell : Nat) (es : List Nat) :
    ∀ (q : List Nat) (ind : List Int),
      ∃ newly, (zeroEdges cell es q ind).1 = q ++ newly ∧ newly.Nodup ∧
        ∀ v ∈ newly, 0 < ind.getD v 0 ∧ (zeroEdges cell es q ind).2.getD v 0 ≤ 0 := by
  induction es with
  | nil =>
    intro q ind
    exact ⟨[], by simp [zeroEdges], List.nodup_nil, by simp⟩
  | cons c cs ih =>
    intro q ind
    by_cases hc : c = cell
    · subst hc
      exact ⟨[], by simp [zeroEdges], List.nodup_nil, by simp⟩
    · simp only [zeroEdges, if_neg hc]
      have hzero : ∀ (hcl : c < ind.length), (ind.set c 0).getD c 0 = 0 :=
        fun hcl => getD_set_self hcl
      by_cases h1 : 0 < ind.getD c 0
      · have hclen : c < ind.length := by
          by_contra hcl
          rw [List.getD_eq_getElem?_getD, List.getElem?_eq_none (le_of_not_lt hcl)] at h1
          simp at h1
        rw [if_pos h1]
        obtain ⟨newly, hq, hnd, hmem⟩ := ih (q ++ [c]) (ind.set c 0)
        refine ⟨c :: newly, by rw [hq]; simp, ?_, ?_⟩
        · refine List.Nodup.cons (fun hcm => ?_) hnd
          have := (hmem c hcm).1
          rw [hzero hclen] at this
          omega
        · intro v hv
          rcases List.mem_cons.1 hv with hvc | hvn
          · subst hvc
            exact ⟨h1, zeroEdges_nonpos cell cs _ _ v (by rw [hzero hclen])⟩
          · obtain ⟨hpos, hfin⟩ := hmem v hvn
            refine ⟨?_, hfin⟩
            by_cases hvc : v = c
            · subst hvc
              rw [hzero hclen] at hpos
              omega
            · rwa [getD_set_ne fun he => hvc he.symm] at hpos
      · rw [if_neg h1]
        obtain ⟨newly, hq, hnd, hmem⟩ := ih q (ind.set c 0)
        refine ⟨newly, hq, hnd, ?_⟩
        intro v hv
        obtain ⟨hpos, hfin⟩ := hmem v hv
        refine ⟨?_, hfin⟩
        by_cases hvc : v = c
        · subst hvc
          by_cases hcl : v < ind.length
          · rw [hzero hcl] at hpos
            omega
          · rwa [List.set_eq_of_length_le (le_of_not_lt hcl)] at hpos
        · rwa [getD_set_ne fun he => hvc he.symm] at hpos

/-! ### Fuel bounds for the two drain loops -/

theorem mem_livePos {ind : List Int} {v : Nat} :
    v ∈ livePos ind ↔ 0 < ind.getD v 0 := by
  rw [livePos, Finset.mem_filter, Finset.mem_range]
  constructor
  · rintro ⟨-, h⟩
    exact h
  · intro h
    refine ⟨?_, h⟩
    by_contra hl
    rw [List.getD_eq_getElem?_getD, List.getElem?_eq_none (le_of_not_lt hl)] at h
    simp at h

/-- One drained step strictly shrinks queue length plus live-entry count:
each newly enqueued node leaves the live set and no node enters it. -/
theorem livePos_step {ind ind' : List Int} {newly : List Nat}
    (hnd : newly.Nodup)
    (hprop : ∀ v ∈ newly, 0 < ind.getD v 0 ∧ ind'.getD v 0 ≤ 0)
    (hpos : ∀ v, 0 < ind'.getD v 0 → 0 < ind.getD v 0) :
    (livePos ind').card + newly.length ≤ (livePos ind).card := by
  have hsub : livePos ind' ∪ newly.toFinset ⊆ livePos ind := by
    intro v hv
    rcases Finset.mem_union.1 hv with hv | hv
    · exact mem_livePos.2 (hpos v (mem_livePos.1 hv))
    · exact mem_livePos.2 (hprop v (List.mem_toFinset.1 hv)).1
  have hdisj : Disjoint (livePos ind') newly.toFinset := by
    rw [Finset.disjoint_right]
    intro v hv hv'
    have h1 := (hprop v (List.mem_toFinset.1 hv)).2
    have h2 := mem_livePos.1 hv'
    omega
  calc (livePos ind').card + newly.length
      = (livePos ind' ∪ newly.toFinset).card := by
        rw [Finset.card_union_of_disjoint hdisj, List.toFinset_card_of_nodup hnd]
    _ ≤ (livePos ind).card := Finset.card_le_card hsub

/-- The cycle-path outer loop returns within `q.length + |livePos ind| + 1`
steps of fuel. -/
theorem revertLoop_total (adj : List (List Nat)) (cell : Nat) :
    ∀ (fuel : Nat) (q : List Nat) (ind : List Int),
      q.length + (livePos ind).card < fuel →
      ∃ ind2, revertLoop adj cell fuel q ind = some ind2 := by
  intro fuel
  induction fuel with
  | zero => intro q ind h; omega
  | succ f ih =>
    intro q ind h
    match q with
    | [] => exact ⟨ind, rfl⟩
    | node :: rest =>
      obtain ⟨newly, hq, hnd, hprop⟩ :=
        zeroEdges_queue_sub cell (adj.getD node []) rest ind
      have hstep := livePos_step hnd hprop
        (zeroEdges_pos cell (adj.getD node []) rest ind)
      obtain ⟨ind2, h2⟩ := ih (zeroEdges cell (adj.getD node []) rest ind).1
        (zeroEdges cell (adj.getD node []) rest ind).2
        (by
          rw [hq, List.length_append]
          simp only [List.length_cons] at h
          omega)
      exact ⟨ind2, by simpa [revertLoop] using h2⟩

/-- The Kahn outer loop returns within `q.length + |livePos ind| + 1` steps
of fuel. -/
theorem kahnLoop_total (adj : List (List Nat)) :
    ∀ (fuel : Nat) (q : List Nat) (ind : List Int) (out : List Nat),
      q.length + (livePos ind).card < fuel →
      ∃ r, kahnLoop adj fuel q ind out = some r := by
  intro fuel
  induction fuel with
  | zero => intro q ind out h; omega
  | succ f ih =>
    intro q ind out h
    match q with
    | [] => exact ⟨(out, ind), rfl⟩
    | node :: rest =>
      obtain ⟨newly, hq, hnd, hprop⟩ :=
        drainEdges_queue_sub (adj.getD node []) rest ind
      have hstep := livePos_step hnd hprop
        (drainEdges_pos (adj.getD node []) rest ind)
      obtain ⟨r, h2⟩ := ih (drainEdges (adj.getD node []) rest ind).1
        (drainEdges (adj.getD node []) rest ind).2 (out ++ [node])
        (by
          rw [hq, List.length_append]
          simp only [List.length_cons] at h
          omega)
      exact ⟨r, by simpa [kahnLoop] using h2⟩

/-! ### Counting edges into a node -/

theorem inCnt_empty (adj : List (List Nat)) (v : Nat) : inCnt adj ∅ v = 0 :=
  Finset.sum_empty

theorem inCnt_insert {adj : List (List Nat)} {P : Finset Nat} {node : Nat}
    (h : node ∉ P) (v : Nat) :
    inCnt adj (insert node P) v =
      (adj.getD node []).count v + inCnt adj P v := by
  rw [inCnt, Finset.sum_insert h, inCnt]

theorem inCnt_pos_of_mem {adj : List (List Nat)} {P : Finset Nat} {x v : Nat}
    (hx : x ∈ P) (hv : v ∈ adj.getD x []) : 0 < inCnt adj P v := by
  have h1 : 0 < (adj.getD x []).count v := List.count_pos_iff.2 hv
  have h2 : (adj.getD x []).count v ≤ inCnt adj P v := by
    rw [inCnt]
    exact Finset.single_le_sum (f := fun y => (adj.getD y []).count v)
      (fun y _ => Nat.zero_le _) hx
  omega

theorem inCnt_exists_of_pos {adj : List (List Nat)} {P : Finset Nat} {v : Nat}
    (h : 0 < inCnt adj P v) : ∃ x ∈ P, v ∈ adj.getD x [] := by
  by_contra hc
  push_neg at hc
  have : inCnt adj P v = 0 := by
    refine Finset.sum_eq_zero fun x hx => ?_
    rw [List.count_eq_zero]
    exact hc x hx
  omega

theorem inCnt_mono {adj : List (List Nat)} {P Q : Finset Nat} (h : P ⊆ Q)
    (v : Nat) : inCnt adj P v ≤ inCnt adj Q v :=
  Finset.sum_le_sum_of_subset h

/-- A duplicate-free list of indices below `n` has length at most `n`. -/
theorem nodup_length_le {l : List Nat} {n : Nat} (hnd : l.Nodup)
    (hb : ∀ v ∈ l, v < n) : l.length ≤ n := by
  have h1 : l.toFinset ⊆ Finset.range n := by
    intro v hv
    exact Finset.mem_range.2 (hb v (List.mem_toFinset.1 hv))
  have h2 := Finset.card_le_card h1
  rwa [List.toFinset_card_of_nodup hnd, Finset.card_range] at h2

/-! ### The breadth-first discovery invariant of `topo_sort` (phase A) -/

theorem PAInv.nonneg {adj : List (List Nat)} {cell n : Nat} {P : Finset Nat}
    {q : List Nat} {ind : List Int} (hinv : PAInv adj cell n P q ind) :
    ∀ u, 0 ≤ ind.getD u 0 := by
  intro u
  rw [hinv.cnt u]
  exact_mod_cast Nat.zero_le _

theorem PAInv.memPos {adj : List (List Nat)} {cell n : Nat} {P : Finset Nat}
    {q : List Nat} {ind : List Int} (hinv : PAInv adj cell n P q ind)
    {v : Nat} (hv : v ∈ P ∨ v ∈ q) (hvc : v ≠ cell) : 0 < inCnt adj P v := by
  rcases ((hinv.closure v).1 hv) with h | ⟨x, hx, he⟩
  · exact absurd h hvc
  · exact inCnt_pos_of_mem hx he

/-- The invariant holds at the start of phase A. -/
theorem PAInv.paStart {adj : List (List Nat)} {cell : Nat} {ind : List Int}
    (hz : AllZero ind) (hcell : cell < ind.length) :
    PAInv adj cell ind.length ∅ [cell] ind where
  len := rfl
  qReach := by
    intro v hv
    rw [List.mem_singleton.1 hv]
    exact Relation.ReflTransGen.refl
  pReach := by intro v hv; exact absurd hv (Finset.not_mem_empty v)
  qNodup := List.nodup_singleton cell
  pqDisj := fun v _ => Finset.not_mem_empty v
  cnt := by intro v; rw [hz v, inCnt_empty]; rfl
  closure := by
    intro v
    simp only [Finset.not_mem_empty, false_or, List.mem_singleton,
      Finset.not_mem_empty, false_and, exists_false, or_false]
  noCell := fun x hx => absurd hx (Finset.not_mem_empty x)
  pBound := fun v hv => absurd hv (Finset.not_mem_empty v)
  qBound := by
    intro v hv
    rw [List.mem_singleton.1 hv]
    exact hcell
  wit := by
    intro v hv
    rw [hz v] at hv
    exact absurd hv (lt_irrefl 0)

/-- One non-aborting step of phase A preserves the invariant, with `node`
moved from the queue into the processed set. -/
theorem PAInv.paStep {adj : List (List Nat)} {cell n : Nat} {P : Finset Nat}
    {node : Nat} {rest : List Nat} {ind : List Int}
    (hinv : PAInv adj cell n P (node :: rest) ind)
    (hb : ∀ x, ∀ c ∈ adj.getD x [], c < n)
    (hnc : cell ∉ adj.getD node []) :
    PAInv adj cell n (insert node P)
      (visitEdges cell (adj.getD node []) rest ind).1
      (visitEdges cell (adj.getD node []) rest ind).2.1 ∧
    node ∉ P := by
  have hnodeq : node ∈ node :: rest := List.mem_cons_self node rest
  have hnodeP : node ∉ P := hinv.pqDisj node hnodeq
  have hwf : ∀ c ∈ adj.getD node [], c < ind.length := by
    intro c hc
    rw [hinv.len]
    exact hb node c hc
  have hcnt' : ∀ v, (visitEdges cell (adj.getD node []) rest ind).2.1.getD v 0 =
      (inCnt adj (insert node P) v : Int) := by
    intro v
    rw [visitEdges_count cell hnc rest ind hwf v, hinv.cnt, inCnt_insert hnodeP]
    push_cast
    ring
  obtain ⟨newly, hq1, hndn, hmemn⟩ :=
    visitEdges_queue cell hnc rest ind hwf hinv.nonneg
  have hnewES : ∀ v ∈ newly, v ∈ adj.getD node [] := fun v hv => ((hmemn v).1 hv).1
  have hnewZ : ∀ v ∈ newly, inCnt adj P v = 0 := by
    intro v hv
    have := ((hmemn v).1 hv).2
    rw [hinv.cnt] at this
    exact_mod_cast this
  have hnewNC : ∀ v ∈ newly, v ≠ cell := by
    intro v hv he
    exact hnc (he ▸ hnewES v hv)
  have hnewOut : ∀ v ∈ newly, ¬ (v ∈ P ∨ v ∈ node :: rest) := by
    intro v hv hin
    have := hinv.memPos hin (hnewNC v hv)
    have := hnewZ v hv
    omega
  have hrestnd : rest.Nodup := hinv.qNodup.of_cons
  have hnodeRest : node ∉ rest := (List.nodup_cons.1 hinv.qNodup).1
  have hmap : ∀ v, v ∈ P ∨ v ∈ node :: rest →
      v ∈ insert node P ∨ v ∈ rest ++ newly := by
    rintro v (h | h)
    · exact Or.inl (Finset.mem_insert_of_mem h)
    · rcases List.mem_cons.1 h with rfl | h
      · exact Or.inl (Finset.mem_insert_self v P)
      · exact Or.inr (List.mem_append_left newly h)
  have hxw : node = cell ∨ 0 < ind.getD node 0 := by
    by_cases hnc2 : node = cell
    · exact Or.inl hnc2
    · refine Or.inr ?_
      rw [hinv.cnt]
      exact_mod_cast hinv.memPos (Or.inr hnodeq) hnc2
  refine ⟨?_, hnodeP⟩
  rw [hq1]
  refine ⟨?_, ?_, ?_, ?_, ?_, ?_, ?_, ?_, ?_, ?_, ?_⟩
  · rw [visitEdges_length]
    exact hinv.len
  · intro v hv
    rcases List.mem_append.1 hv with hv | hv
    · exact hinv.qReach v (List.mem_cons_of_mem node hv)
    · exact Relation.ReflTransGen.tail (hinv.qReach node hnodeq) (hnewES v hv)
  · intro v hv
    rcases Finset.mem_insert.1 hv with rfl | hv
    · exact hinv.qReach v hnodeq
    · exact hinv.pReach v hv
  · refine List.Nodup.append hrestnd hndn ?_
    intro v hvr hvn
    exact hnewOut v hvn (Or.inr (List.mem_cons_of_mem node hvr))
  · intro v hv
    rcases List.mem_append.1 hv with hv | hv
    · intro hins
      rcases Finset.mem_insert.1 hins with rfl | hP
      · exact hnodeRest hv
      · exact hinv.pqDisj v (List.mem_cons_of_mem node hv) hP
    · intro hins
      rcases Finset.mem_insert.1 hins with rfl | hP
      · exact hnewOut v hv (Or.inr hnodeq)
      · exact hnewOut v hv (Or.inl hP)
  · exact hcnt'
  · intro v
    constructor
    · rintro (hv | hv)
      · rcases Finset.mem_insert.1 hv with rfl | hv
        · rcases (hinv.closure v).1 (Or.inr hnodeq) with h | ⟨x, hx, he⟩
          · exact Or.inl h
          · exact Or.inr ⟨x, Finset.mem_insert_of_mem hx, he⟩
        · rcases (hinv.closure v).1 (Or.inl hv) with h | ⟨x, hx, he⟩
          · exact Or.inl h
          · exact Or.inr ⟨x, Finset.mem_insert_of_mem hx, he⟩
      · rcases List.mem_append.1 hv with hv | hv
        · rcases (hinv.closure v).1 (Or.inr (List.mem_cons_of_mem node hv)) with
            h | ⟨x, hx, he⟩
          · exact Or.inl h
          · exact Or.inr ⟨x, Finset.mem_insert_of_mem hx, he⟩
        · exact Or.inr ⟨node, Finset.mem_insert_self node P, hnewES v hv⟩
    · rintro (rfl | ⟨x, hx, he⟩)
      · exact hmap v ((hinv.closure v).2 (Or.inl rfl))
      · rcases Finset.mem_insert.1 hx with rfl | hx
        · by_cases hz : inCnt adj P v = 0
          · refine Or.inr (List.mem_append_right rest ?_)
            refine (hmemn v).2 ⟨he, ?_⟩
            rw [hinv.cnt, hz]
            rfl
          · obtain ⟨x', hx', he'⟩ :=
              inCnt_exists_of_pos (Nat.pos_of_ne_zero hz)
            exact hmap v ((hinv.closure v).2 (Or.inr ⟨x', hx', he'⟩))
        · exact hmap v ((hinv.closure v).2 (Or.inr ⟨x, hx, he⟩))
  · intro x hx
    rcases Finset.mem_insert.1 hx with rfl | hx
    · exact hnc
    · exact hinv.noCell x hx
  · intro v hv
    rcases Finset.mem_insert.1 hv with rfl | hv
    · exact hinv.qBound v hnodeq
    · exact hinv.pBound v hv
  · intro v hv
    rcases List.mem_append.1 hv with hv | hv
    · exact hinv.qBound v (List.mem_cons_of_mem node hv)
    · exact hb node v (hnewES v hv)
  · exact visitEdges_wit adj cell (mem_walkPre_of_not_cell hnc) rest ind
      hxw hinv.wit

/-- Queue effect of the phase A inner loop without assuming the walk runs to
the end: newly enqueued nodes are distinct edge targets (other than `cell`)
whose indegree entry was zero. -/
theorem visitEdges_queue_abort (cell : Nat) :
    ∀ (es q : List Nat) (ind : List Int), (∀ c ∈ es, c < ind.length) →
      (∀ u, 0 ≤ ind.getD u 0) →
      ∃ newly, (visitEdges cell es q ind).1 = q ++ newly ∧ newly.Nodup ∧
        ∀ v ∈ newly, v ∈ es ∧ v ≠ cell ∧ ind.getD v 0 = 0 := by
  intro es
  induction es with
  | nil =>
    intro q ind _ _
    exact ⟨[], by simp [visitEdges], List.nodup_nil, by simp⟩
  | cons c cs ih =>
    intro q ind hwf hnn
    by_cases hc : c = cell
    · subst hc
      exact ⟨[], by simp [visitEdges], List.nodup_nil, by simp⟩
    · have hclen : c < ind.length := hwf c (List.mem_cons_self c cs)
      have hwf' : ∀ d ∈ cs, d < (ind.set c (ind.getD c 0 + 1)).length := by
        intro d hd
        rw [List.length_set]
        exact hwf d (List.mem_cons_of_mem c hd)
      have hnn' : ∀ u, 0 ≤ (ind.set c (ind.getD c 0 + 1)).getD u 0 :=
        fun u => le_trans (hnn u) (getD_le_set_incr ind c u)
      have hcv : (ind.set c (ind.getD c 0 + 1)).getD c 0 = ind.getD c 0 + 1 :=
        getD_set_self hclen
      simp only [visitEdges, if_neg hc]
      by_cases h0 : ind.getD c 0 = 0
      · rw [if_pos h0]
        obtain ⟨newly, hq, hnd, hmem⟩ := ih (q ++ [c]) _ hwf' hnn'
        refine ⟨c :: newly, by rw [hq]; simp, ?_, ?_⟩
        · refine List.Nodup.cons (fun hcm => ?_) hnd
          have := (hmem c hcm).2.2
          rw [hcv, h0] at this
          omega
        · intro v hv
          rcases List.mem_cons.1 hv with rfl | hvn
          · exact ⟨List.mem_cons_self v cs, hc, h0⟩
          · obtain ⟨hves, hvnc, hvz⟩ := hmem v hvn
            have hvc : v ≠ c := by
              intro he
              rw [he, hcv] at hvz
              have := hnn c
              omega
            rw [getD_set_ne (fun he => hvc he.symm)] at hvz
            exact ⟨List.mem_cons_of_mem c hves, hvnc, hvz⟩
      · rw [if_neg h0]
        obtain ⟨newly, hq, hnd, hmem⟩ := ih q _ hwf' hnn'
        refine ⟨newly, hq, hnd, ?_⟩
        intro v hv
        obtain ⟨hves, hvnc, hvz⟩ := hmem v hv
        have hvc : v ≠ c := by
          intro he
          rw [he, hcv] at hvz
          have := hnn c
          omega
        rw [getD_set_ne (fun he => hvc he.symm)] at hvz
        exact ⟨List.mem_cons_of_mem c hves, hvnc, hvz⟩

/-- The full run of phase A from an invariant state: either it aborts with
the cycle flag and a witnessing back edge, or it drains the queue with the
processed set equal to the reachable set. -/
theorem phaseA_run {adj : List (List Nat)} {cell n : Nat}
    (hb : ∀ x, ∀ c ∈ adj.getD x [], c < n) :
    ∀ (fuel : Nat) (P : Finset Nat) (q : List Nat) (ind : List Int) (ct : Nat),
      PAInv adj cell n P q ind → ct = P.card + 1 → n + 1 ≤ fuel + P.card →
      ∃ q2 ind2 ct2 flag,
        phaseA adj cell fuel q ind ct = some (q2, ind2, ct2, flag) ∧
        ind2.length = n ∧ q2.Nodup ∧ (∀ v ∈ q2, v < n) ∧
        ((flag = true ∧ (∃ x, Reach adj cell x ∧ cell ∈ adj.getD x []) ∧
            (∀ u, 0 ≤ ind2.getD u 0) ∧
            (∀ v, 0 < ind2.getD v 0 → Wit adj cell ind2 cell v)) ∨
         (flag = false ∧ q2 = [] ∧ ∃ P2 : Finset Nat,
            PAInv adj cell n P2 [] ind2 ∧ ct2 = P2.card + 1 ∧
            ∀ v, v ∈ P2 ↔ Reach adj cell v)) := by
  intro fuel
  induction fuel with
  | zero =>
    intro P q ind ct hinv hct hfuel
    exfalso
    have hPsub : P ⊆ Finset.range n :=
      fun v hv => Finset.mem_range.2 (hinv.pBound v hv)
    have := Finset.card_le_card hPsub
    rw [Finset.card_range] at this
    omega
  | succ f ih =>
    intro P q ind ct hinv hct hfuel
    match q with
    | [] =>
      refine ⟨[], ind, ct, false, rfl, hinv.len, List.nodup_nil, by simp, ?_⟩
      refine Or.inr ⟨rfl, rfl, P, hinv, hct, ?_⟩
      intro v
      constructor
      · exact hinv.pReach v
      · intro hr
        induction hr with
        | refl =>
          rcases (hinv.closure cell).2 (Or.inl rfl) with h | h
          · exact h
          · exact absurd h (List.not_mem_nil cell)
        | tail h1 h2 ih2 =>
          rcases (hinv.closure _).2 (Or.inr ⟨_, ih2, h2⟩) with h | h
          · exact h
          · exact absurd h (List.not_mem_nil _)
    | node :: rest =>
      by_cases hcyc : cell ∈ adj.getD node []
      · have hflag : (visitEdges cell (adj.getD node []) rest ind).2.2 = true := by
          rw [visitEdges_eq_takeWhile]
          show decide (cell ∈ adj.getD node []) = true
          exact decide_eq_true hcyc
        have hwf : ∀ c ∈ adj.getD node [], c < ind.length := by
          intro c hc
          rw [hinv.len]
          exact hb node c hc
        obtain ⟨newly, hq1, hndn, hpropn⟩ :=
          visitEdges_queue_abort cell (adj.getD node []) rest ind hwf hinv.nonneg
        refine ⟨(visitEdges cell (adj.getD node []) rest ind).1,
          (visitEdges cell (adj.getD node []) rest ind).2.1, ct + 1, true,
          ?_, ?_, ?_, ?_, ?_⟩
        · simp only [phaseA]
          rw [if_pos hflag]
        · rw [visitEdges_length]
          exact hinv.len
        · rw [hq1]
          refine List.Nodup.append hinv.qNodup.of_cons hndn ?_
          intro v hvr hvn
          obtain ⟨hve, hvnc, hvz⟩ := hpropn v hvn
          have hpos := hinv.memPos (Or.inr (List.mem_cons_of_mem node hvr)) hvnc
          rw [hinv.cnt] at hvz
          have : inCnt adj P v = 0 := by exact_mod_cast hvz
          omega
        · rw [hq1]
          intro v hv
          rcases List.mem_append.1 hv with hv | hv
          · exact hinv.qBound v (List.mem_cons_of_mem node hv)
          · exact hb node v (hpropn v hv).1
        · refine Or.inl ⟨rfl, ⟨node,
            hinv.qReach node (List.mem_cons_self node rest), hcyc⟩, ?_, ?_⟩
          · intro u
            exact le_trans (hinv.nonneg u)
              (visitEdges_mono cell (adj.getD node []) rest ind u)
          · have hxw : node = cell ∨ 0 < ind.getD node 0 := by
              by_cases hnc2 : node = cell
              · exact Or.inl hnc2
              · refine Or.inr ?_
                rw [hinv.cnt]
                exact_mod_cast hinv.memPos
                  (Or.inr (List.mem_cons_self node rest)) hnc2
            have hind : (visitEdges cell (adj.getD node []) rest ind).2.1 =
                (visitEdges cell ((adj.getD node []).takeWhile fun c => c ≠ cell)
                  rest ind).2.1 := by
              rw [visitEdges_eq_takeWhile]
            rw [hind]
            exact visitEdges_wit adj cell (fun c hc => hc) rest ind
              hxw hinv.wit
      · obtain ⟨hinv', hnodeP⟩ := hinv.paStep hb hcyc
        have hflag : (visitEdges cell (adj.getD node []) rest ind).2.2 = false :=
          visitEdges_flag_false cell hcyc rest ind
        have hcard : (insert node P).card = P.card + 1 :=
          Finset.card_insert_of_not_mem hnodeP
        obtain ⟨q2, ind2, ct2, flag, hrun, hlen2, hnd2, hbnd2, hcase⟩ :=
          ih (insert node P) _ _ (ct + 1) hinv' (by omega) (by omega)
        refine ⟨q2, ind2, ct2, flag, ?_, hlen2, hnd2, hbnd2, hcase⟩
        simp only [phaseA]
        rw [if_neg (by rw [hflag]; simp)]
        exact hrun

/-! ### The Kahn drain invariant of `topo_sort` -/

/-- The Kahn loop invariant holds on entry, seeded with the queue `[cell]`. -/
theorem KInv.kStart {adj : List (List Nat)} {cell n : Nat} {R : Finset Nat}
    {ind : List Int} (hlen : ind.length = n)
    (hcnt : ∀ v, ind.getD v 0 = (inCnt adj R v : Int))
    (hcellR : cell ∈ R)
    (hRnc : ∀ x ∈ R, cell ∉ adj.getD x [])
    (hRpos : ∀ v ∈ R, v ≠ cell → 0 < inCnt adj R v) :
    KInv adj cell n R ∅ [cell] ind [] where
  len := hlen
  sub := Finset.empty_subset R
  outD := by simp
  outNodup := List.nodup_nil
  cnt := by
    intro v
    rw [Finset.sdiff_empty]
    exact hcnt v
  qchar := by
    intro v
    rw [Finset.sdiff_empty]
    constructor
    · intro hv
      rw [List.mem_singleton.1 hv]
      refine ⟨hcellR, Finset.not_mem_empty cell, ?_⟩
      by_contra hpos
      obtain ⟨x, hx, he⟩ := inCnt_exists_of_pos (Nat.pos_of_ne_zero hpos)
      exact hRnc x hx he
    · rintro ⟨hvR, -, hz⟩
      rw [List.mem_singleton]
      by_contra hvc
      have := hRpos v hvR hvc
      omega
  qNodup := List.nodup_singleton cell
  doneZero := fun v hv => absurd hv (Finset.not_mem_empty v)
  ord := by intro y hy; exact absurd hy (List.not_mem_nil y)

/-- One step of the Kahn loop preserves the invariant, emitting `node`. -/
theorem KInv.kStep {adj : List (List Nat)} {cell n : Nat} {R : Finset Nat}
    {D : Finset Nat} {node : Nat} {rest : List Nat} {ind : List Int}
    {out : List Nat}
    (hK : KInv adj cell n R D (node :: rest) ind out)
    (hb : ∀ x, ∀ c ∈ adj.getD x [], c < n)
    (hRc : ∀ x ∈ R, ∀ v ∈ adj.getD x [], v ∈ R) :
    KInv adj cell n R (insert node D)
      (drainEdges (adj.getD node []) rest ind).1
      (drainEdges (adj.getD node []) rest ind).2
      (out ++ [node]) ∧ node ∉ D := by
  obtain ⟨hnR, hnD, hnZ⟩ := (hK.qchar node).1 (List.mem_cons_self node rest)
  have hnRD : node ∈ R \ D := Finset.mem_sdiff.2 ⟨hnR, hnD⟩
  have hwf : ∀ c ∈ adj.getD node [], c < ind.length := by
    intro c hc
    rw [hK.len]
    exact hb node c hc
  have hsplit : ∀ v, (adj.getD node []).count v +
      inCnt adj ((R \ D).erase node) v = inCnt adj (R \ D) v := by
    intro v
    exact Finset.add_sum_erase (R \ D) (fun x => (adj.getD x []).count v) hnRD
  have hDD : R \ insert node D = (R \ D).erase node :=
    Finset.sdiff_insert R D node
  have hcnt' : ∀ v, (drainEdges (adj.getD node []) rest ind).2.getD v 0 =
      (inCnt adj (R \ insert node D) v : Int) := by
    intro v
    rw [drainEdges_count rest ind hwf v, hK.cnt v, hDD, ← hsplit v]
    push_cast
    ring
  obtain ⟨newly, hq1, hndn, hmemn⟩ := drainEdges_queue rest ind hwf
  have hchar : ∀ v, v ∈ newly ↔
      0 < inCnt adj (R \ D) v ∧ inCnt adj (R \ insert node D) v = 0 := by
    intro v
    rw [hmemn v, hK.cnt v, hDD]
    have := hsplit v
    constructor
    · rintro ⟨h1, h2⟩
      constructor
      · exact_mod_cast h1
      · have h2' : inCnt adj (R \ D) v ≤ (adj.getD node []).count v := by
          exact_mod_cast h2
        omega
    · rintro ⟨h1, h2⟩
      constructor
      · exact_mod_cast h1
      · have : inCnt adj (R \ D) v ≤ (adj.getD node []).count v := by omega
        exact_mod_cast this
  have hmono : ∀ v, inCnt adj (R \ insert node D) v ≤ inCnt adj (R \ D) v :=
    fun v => inCnt_mono
      (Finset.sdiff_subset_sdiff (Finset.Subset.refl R)
        (Finset.subset_insert node D)) v
  have hnodeRest : node ∉ rest := (List.nodup_cons.1 hK.qNodup).1
  have hnodeOut : node ∉ out := fun h => hnD ((hK.outD node).1 h)
  have hidx : ∀ x ∈ out, List.indexOf x (out ++ [node]) = List.indexOf x out :=
    fun x hx => List.indexOf_append_of_mem hx
  have hidxNode : List.indexOf node (out ++ [node]) = out.length := by
    rw [List.indexOf_append_of_not_mem hnodeOut, List.indexOf_cons_self]
    ring
  refine ⟨?_, hnD⟩
  rw [hq1]
  refine ⟨?_, ?_, ?_, ?_, hcnt', ?_, ?_, ?_, ?_⟩
  · rw [drainEdges_length]
    exact hK.len
  · intro v hv
    rcases Finset.mem_insert.1 hv with rfl | hv
    · exact hnR
    · exact hK.sub hv
  · intro v
    rw [List.mem_append, List.mem_singleton, hK.outD v, Finset.mem_insert]
    tauto
  · rw [List.nodup_append]
    exact ⟨hK.outNodup, List.nodup_singleton node,
      fun v hv hv' => hnodeOut ((List.mem_singleton.1 hv') ▸ hv)⟩
  · intro v
    constructor
    · intro hv
      rcases List.mem_append.1 hv with hv | hv
      · obtain ⟨hvR, hvD, hvZ⟩ :=
          (hK.qchar v).1 (List.mem_cons_of_mem node hv)
        have hvn : v ≠ node := fun he => hnodeRest (he ▸ hv)
        refine ⟨hvR, ?_, ?_⟩
        · rw [Finset.mem_insert]
          tauto
        · have := hmono v
          omega
      · obtain ⟨h1, h2⟩ := (hchar v).1 hv
        obtain ⟨x, hx, he⟩ := inCnt_exists_of_pos h1
        have hxR : x ∈ R := (Finset.mem_sdiff.1 hx).1
        refine ⟨hRc x hxR v he, ?_, h2⟩
        rw [Finset.mem_insert]
        rintro (rfl | hvD)
        · omega
        · have := hK.doneZero v hvD
          omega
    · rintro ⟨hvR, hvD', hvZ'⟩
      rw [Finset.mem_insert] at hvD'
      push_neg at hvD'
      obtain ⟨hvn, hvD⟩ := hvD'
      by_cases hz : inCnt adj (R \ D) v = 0
      · have hvq := (hK.qchar v).2 ⟨hvR, hvD, hz⟩
        rcases List.mem_cons.1 hvq with h | h
        · exact absurd h hvn
        · exact List.mem_append_left newly h
      · exact List.mem_append_right rest
          ((hchar v).2 ⟨Nat.pos_of_ne_zero hz, hvZ'⟩)
  · rw [List.nodup_append]
    refine ⟨hK.qNodup.of_cons, hndn, ?_⟩
    intro v hvr hvn
    obtain ⟨-, -, hvZ⟩ := (hK.qchar v).1 (List.mem_cons_of_mem node hvr)
    have := (hchar v).1 hvn
    omega
  · intro v hv
    rcases Finset.mem_insert.1 hv with rfl | hv
    · have := hmono v
      omega
    · have := hK.doneZero v hv
      have := hmono v
      omega
  · intro y hy x hxR he
    rcases List.mem_append.1 hy with hy | hy
    · obtain ⟨hxo, hlt⟩ := hK.ord y hy x hxR he
      refine ⟨List.mem_append_left [node] hxo, ?_⟩
      rw [hidx x hxo, hidx y hy]
      exact hlt
    · rw [List.mem_singleton.1 hy] at he ⊢
      have hxD : x ∈ D := by
        by_contra hxD
        have hxRD : x ∈ R \ D := Finset.mem_sdiff.2 ⟨hxR, hxD⟩
        have := inCnt_pos_of_mem hxRD he
        omega
      have hxo : x ∈ out := (hK.outD x).2 hxD
      refine ⟨List.mem_append_left [node] hxo, ?_⟩
      rw [hidx x hxo, hidxNode]
      exact List.indexOf_lt_length.2 hxo

/-- The full run of the Kahn loop from an invariant state. -/
theorem kahn_run {adj : List (List Nat)} {cell n : Nat} {R : Finset Nat}
    (hb : ∀ x, ∀ c ∈ adj.getD x [], c < n)
    (hRc : ∀ x ∈ R, ∀ v ∈ adj.getD x [], v ∈ R)
    (hRb : ∀ v ∈ R, v < n) :
    ∀ (fuel : Nat) (D : Finset Nat) (q : List Nat) (ind : List Int)
      (out : List Nat), KInv adj cell n R D q ind out →
      n + 1 ≤ fuel + D.card →
      ∃ out2 ind2 D2, kahnLoop adj fuel q ind out = some (out2, ind2) ∧
        KInv adj cell n R D2 [] ind2 out2 := by
  intro fuel
  induction fuel with
  | zero =>
    intro D q ind out hK hfuel
    exfalso
    have h1 : D ⊆ Finset.range n :=
      fun v hv => Finset.mem_range.2 (hRb v (hK.sub hv))
    have := Finset.card_le_card h1
    rw [Finset.card_range] at this
    omega
  | succ f ih =>
    intro D q ind out hK hfuel
    match q with
    | [] => exact ⟨out, ind, D, rfl, hK⟩
    | node :: rest =>
      obtain ⟨hK', hnD⟩ := hK.kStep hb hRc
      have hcard : (insert node D).card = D.card + 1 :=
        Finset.card_insert_of_not_mem hnD
      obtain ⟨out2, ind2, D2, hrun, hK2⟩ :=
        ih (insert node D) _ _ (out ++ [node]) hK' (by omega)
      exact ⟨out2, ind2, D2, hrun, hK2⟩

/-- A nonempty finite set in which every node has a predecessor inside the
set contains a directed cycle. -/
theorem exists_cycle_of_preds (adj : List (List Nat)) :
    ∀ (k : Nat) (S : Finset Nat), S.card ≤ k → S.Nonempty →
      (∀ v ∈ S, ∃ u ∈ S, v ∈ adj.getD u []) →
      ∃ v ∈ S, Relation.TransGen (edgeStep adj) v v := by
  intro k
  induction k with
  | zero =>
    intro S hc hne _
    obtain ⟨v, hv⟩ := hne
    have := Finset.card_pos.2 ⟨v, hv⟩
    omega
  | succ k ih =>
    intro S hc hne hpred
    obtain ⟨v0, hv0⟩ := hne
    classical
    by_cases hv0T :
        v0 ∈ S.filter fun u => Relation.TransGen (edgeStep adj) u v0
    · exact ⟨v0, hv0, (Finset.mem_filter.1 hv0T).2⟩
    · have hTne :
          (S.filter fun u => Relation.TransGen (edgeStep adj) u v0).Nonempty := by
        obtain ⟨u, hu, hue⟩ := hpred v0 hv0
        exact ⟨u, Finset.mem_filter.2
          ⟨hu, Relation.TransGen.single (show edgeStep adj u v0 from hue)⟩⟩
      have hTsub : (S.filter fun u => Relation.TransGen (edgeStep adj) u v0) ⊆ S :=
        Finset.filter_subset _ S
      have hTcard :
          (S.filter fun u => Relation.TransGen (edgeStep adj) u v0).card ≤ k := by
        have h1 : (S.filter fun u => Relation.TransGen (edgeStep adj) u v0) ⊆
            S.erase v0 := by
          intro u hu
          refine Finset.mem_erase.2 ⟨?_, hTsub hu⟩
          intro he
          exact hv0T (he ▸ hu)
        have h2 := Finset.card_le_card h1
        have h3 := Finset.card_erase_of_mem hv0
        have h4 := Finset.card_pos.2 ⟨v0, hv0⟩
        omega
      have hTpred : ∀ v ∈ S.filter fun u => Relation.TransGen (edgeStep adj) u v0,
          ∃ u ∈ S.filter fun u => Relation.TransGen (edgeStep adj) u v0,
            v ∈ adj.getD u [] := by
        intro v hv
        obtain ⟨hvS, hvt⟩ := Finset.mem_filter.1 hv
        obtain ⟨u, huS, hue⟩ := hpred v hvS
        refine ⟨u, Finset.mem_filter.2 ⟨huS, ?_⟩, hue⟩
        exact Relation.TransGen.head (show edgeStep adj u v from hue) hvt
      obtain ⟨v, hvT, hcycle⟩ := ih _ hTcard hTne hTpred
      exact ⟨v, hTsub hvT, hcycle⟩

theorem livePos_card_le (ind : List Int) : (livePos ind).card ≤ ind.length := by
  have := Finset.card_filter_le (Finset.range ind.length)
    fun v => 0 < ind.getD v 0
  rwa [Finset.card_range] at this

/-! ### Full specification of `topo_sort` -/

/-- On an in-bounds adjacency structure that is acyclic on the nodes
reachable from `cell`, and an all-zero workspace, `topo_sort` returns the
count-prefixed reachable set in a topological order and drains the workspace
back to zero everywhere. -/
theorem topoSort_acyclic {adj : List (List Nat)} {cell : Nat} {ind : List Int}
    {fuel : Nat}
    (hb : ∀ x, ∀ c ∈ adj.getD x [], c < ind.length)
    (hcell : cell < ind.length) (hz : AllZero ind)
    (hacy : AcyclicFrom adj cell)
    (hfuel : 2 * ind.length + 2 ≤ fuel) :
    ∃ out ind2,
      topoSort adj cell ind fuel =
        some ((out.length : Int) :: out.map (fun v => (v : Int)), ind2) ∧
      out.Nodup ∧ (∀ v, v ∈ out ↔ Reach adj cell v) ∧
      (∀ x y, x ∈ out → y ∈ out → y ∈ adj.getD x [] →
        List.indexOf x out < List.indexOf y out) ∧
      AllZero ind2 := by
  obtain ⟨q2, ind2, ct2, flag, hrun, hlen2, hnd2, hbnd2, hcase⟩ :=
    phaseA_run hb fuel ∅ [cell] ind 1 (PAInv.paStart hz hcell)
      (by simp) (by simp only [Finset.card_empty]; omega)
  rcases hcase with ⟨hflag, ⟨x, hxr, hxe⟩, -, -⟩ | ⟨hflag, hq2, P2, hinv2, hct2, hPR⟩
  · exfalso
    exact hacy cell Relation.ReflTransGen.refl
      (Relation.TransGen.tail' hxr (show edgeStep adj x cell from hxe))
  · subst hflag
    subst hq2
    have hcellR : cell ∈ P2 := by
      rcases (hinv2.closure cell).2 (Or.inl rfl) with h | h
      · exact h
      · exact absurd h (List.not_mem_nil cell)
    have hRc : ∀ x ∈ P2, ∀ v ∈ adj.getD x [], v ∈ P2 := by
      intro x hx v hv
      rcases (hinv2.closure v).2 (Or.inr ⟨x, hx, hv⟩) with h | h
      · exact h
      · exact absurd h (List.not_mem_nil v)
    have hRpos : ∀ v ∈ P2, v ≠ cell → 0 < inCnt adj P2 v :=
      fun v hv hvc => hinv2.memPos (Or.inl hv) hvc
    have hstart2 := KInv.kStart hlen2 hinv2.cnt hcellR hinv2.noCell hRpos
    obtain ⟨out2, ind3, D2, hrun2, hK2⟩ :=
      kahn_run hb hRc hinv2.pBound fuel ∅ [cell] ind2 [] hstart2
        (by simp only [Finset.card_empty]; omega)
    have hSempty : P2 \ D2 = ∅ := by
      by_contra hne
      obtain ⟨v0, hv0⟩ := Finset.nonempty_iff_ne_empty.2 hne
      have hpred : ∀ v ∈ P2 \ D2, ∃ u ∈ P2 \ D2, v ∈ adj.getD u [] := by
        intro v hv
        obtain ⟨hvR, hvD⟩ := Finset.mem_sdiff.1 hv
        have hnq : ¬ (v ∈ P2 ∧ v ∉ D2 ∧ inCnt adj (P2 \ D2) v = 0) := by
          rw [← hK2.qchar v]
          exact List.not_mem_nil v
        have hzv : inCnt adj (P2 \ D2) v ≠ 0 := by tauto
        exact inCnt_exists_of_pos (Nat.pos_of_ne_zero hzv)
      obtain ⟨w, hwS, hcyc⟩ := exists_cycle_of_preds adj (P2 \ D2).card
        (P2 \ D2) le_rfl ⟨v0, hv0⟩ hpred
      have hwR : w ∈ P2 := (Finset.mem_sdiff.1 hwS).1
      exact hacy w ((hPR w).1 hwR) hcyc
    have hD2 : D2 = P2 :=
      Finset.Subset.antisymm hK2.sub (Finset.sdiff_eq_empty_iff_subset.1 hSempty)
    have houtR : ∀ v, v ∈ out2 ↔ v ∈ P2 := by
      intro v
      rw [hK2.outD v, hD2]
    have htf : out2.toFinset = P2 := by
      refine Finset.ext fun v => ?_
      rw [List.mem_toFinset]
      exact houtR v
    have hlenout : out2.length = P2.card := by
      rw [← htf, List.toFinset_card_of_nodup hK2.outNodup]
    refine ⟨out2, ind3, ?_, hK2.outNodup, ?_, ?_, ?_⟩
    · simp only [topoSort, hrun, reduceIte, List.nil_append]
      rw [hrun2]
      have hct : ct2 - 1 = out2.length := by omega
      simp only [hct, Nat.sub_self, List.replicate_zero, List.append_nil]
      rw [if_neg Bool.false_ne_true]
    · intro v
      rw [houtR v, hPR v]
    · intro x y hx hy he
      exact (hK2.ord y hy x ((houtR x).1 hx) he).2
    · intro v
      rw [hK2.cnt v, hD2, Finset.sdiff_self, inCnt_empty]
      rfl

/-- On an in-bounds adjacency structure and an all-zero workspace,
`topo_sort` always returns, and its first output element is `-1` exactly
when some node reachable from `cell` has an edge back to `cell` — that is,
when a nonempty directed path leads from `cell` back to `cell`. -/
theorem topoSort_cycleIff {adj : List (List Nat)} {cell : Nat} {ind : List Int}
    {fuel : Nat}
    (hb : ∀ x, ∀ c ∈ adj.getD x [], c < ind.length)
    (hcell : cell < ind.length) (hz : AllZero ind)
    (hfuel : 2 * ind.length + 2 ≤ fuel) :
    ∃ res ind2, topoSort adj cell ind fuel = some (res, ind2) ∧
      (res.getD 0 0 = -1 ↔ Relation.TransGen (edgeStep adj) cell cell) := by
  obtain ⟨q2, ind2, ct2, flag, hrun, hlen2, hnd2, hbnd2, hcase⟩ :=
    phaseA_run hb fuel ∅ [cell] ind 1 (PAInv.paStart hz hcell)
      (by simp) (by simp only [Finset.card_empty]; omega)
  rcases hcase with ⟨hflag, ⟨x, hxr, hxe⟩, -, -⟩ | ⟨hflag, hq2, P2, hinv2, hct2, hPR⟩
  · subst hflag
    have hq2len : q2.length ≤ ind.length := nodup_length_le hnd2 hbnd2
    have hlive : (livePos ind2).card ≤ ind.length := by
      have := livePos_card_le ind2
      rwa [hlen2] at this
    obtain ⟨ind3, hrev⟩ := revertLoop_total adj cell fuel (q2 ++ [cell]) ind2
      (by rw [List.length_append]; simp only [List.length_singleton]; omega)
    refine ⟨-1 :: List.replicate (ct2 - 1) 0, ind3, ?_, ?_⟩
    · simp only [topoSort, hrun, reduceIte]
      rw [hrev]
    · rw [List.getD_cons_zero]
      exact iff_of_true rfl
        (Relation.TransGen.tail' hxr (show edgeStep adj x cell from hxe))
  · subst hflag
    subst hq2
    have hlive : (livePos ind2).card ≤ ind.length := by
      have := livePos_card_le ind2
      rwa [hlen2] at this
    obtain ⟨⟨out2, ind3⟩, hkh⟩ := kahnLoop_total adj fuel ([] ++ [cell]) ind2 []
      (by simp only [List.nil_append, List.length_singleton]; omega)
    rw [List.nil_append] at hkh
    refine ⟨(((ct2 - 1 : Nat) : Int) :: out2.map (fun v => (v : Int))) ++
      List.replicate (ct2 - 1 - out2.length) 0, ind3, ?_, ?_⟩
    · simp only [topoSort, hrun, reduceIte, List.nil_append]
      rw [if_neg Bool.false_ne_true, hkh]
    · rw [List.cons_append, List.getD_cons_zero]
      constructor
      · intro h
        exfalso
        omega
      · intro h
        exfalso
        obtain ⟨b, hbr, hbe⟩ : ∃ b, Reach adj cell b ∧ edgeStep adj b cell := by
          cases h with
          | single h1 => exact ⟨cell, Relation.ReflTransGen.refl, h1⟩
          | tail h1 h2 => exact ⟨_, h1.to_reflTransGen, h2⟩
        have hbP : b ∈ P2 := (hPR b).2 hbr
        exact hinv2.noCell b hbP hbe

/-! ### The cycle-path revert loop drains the workspace -/

/-- Value effect of the cycle-path inner loop: exactly the entries of the
walked prefix (before the first edge back to `cell`) are zeroed. -/
theorem zeroEdges_sets (cell : Nat) :
    ∀ (es q : List Nat) (ind : List Int) (v : Nat),
      (zeroEdges cell es q ind).2.getD v 0 =
        if v ∈ es.takeWhile (fun c => c ≠ cell) then 0 else ind.getD v 0 := by
  intro es
  induction es with
  | nil => intro q ind v; simp [zeroEdges]
  | cons c cs ih =>
    intro q ind v
    by_cases hc : c = cell
    · subst hc
      rw [List.takeWhile_cons]
      simp [zeroEdges]
    · have htw : (c :: cs).takeWhile (fun c' => c' ≠ cell) =
          c :: cs.takeWhile (fun c' => c' ≠ cell) := by
        rw [List.takeWhile_cons, if_pos (by simpa using hc)]
      simp only [zeroEdges, if_neg hc]
      rw [htw, ih]
      by_cases hv : v ∈ cs.takeWhile (fun c' => c' ≠ cell)
      · rw [if_pos hv, if_pos (List.mem_cons_of_mem c hv)]
      · rw [if_neg hv]
        by_cases hvc : v = c
        · subst hvc
          rw [if_pos (List.mem_cons_self v _)]
          by_cases hcl : v < ind.length
          · rw [getD_set_self hcl]
          · rw [List.set_eq_of_length_le (le_of_not_lt hcl),
              List.getD_eq_getElem?_getD,
              List.getElem?_eq_none (le_of_not_lt hcl)]
            rfl
        · rw [if_neg (fun h => by
            rcases List.mem_cons.1 h with h | h
            · exact hvc h
            · exact hv h), getD_set_ne fun he => hvc he.symm]

/-- Queue effect of the cycle-path inner loop: the newly enqueued nodes are
exactly the walked-prefix entries that held a positive value. -/
theorem zeroEdges_queue (cell : Nat) :
    ∀ (es q : List Nat) (ind : List Int),
      ∃ newly, (zeroEdges cell es q ind).1 = q ++ newly ∧
        ∀ v, v ∈ newly ↔
          v ∈ es.takeWhile (fun c => c ≠ cell) ∧ 0 < ind.getD v 0 := by
  intro es
  induction es with
  | nil =>
    intro q ind
    exact ⟨[], by simp [zeroEdges], by simp⟩
  | cons c cs ih =>
    intro q ind
    by_cases hc : c = cell
    · subst hc
      refine ⟨[], by simp [zeroEdges], ?_⟩
      intro v
      rw [List.takeWhile_cons]
      simp
    · have htw : (c :: cs).takeWhile (fun c' => c' ≠ cell) =
          c :: cs.takeWhile (fun c' => c' ≠ cell) := by
        rw [List.takeWhile_cons, if_pos (by simpa using hc)]
      simp only [zeroEdges, if_neg hc, htw]
      have hdc : ∀ v, v ≠ c → (ind.set c 0).getD v 0 = ind.getD v 0 :=
        fun v hv => getD_set_ne fun he => hv he.symm
      have hcc : (ind.set c 0).getD c 0 = 0 := by
        by_cases hcl : c < ind.length
        · exact getD_set_self hcl
        · rw [List.set_eq_of_length_le (le_of_not_lt hcl),
            List.getD_eq_getElem?_getD,
            List.getElem?_eq_none (le_of_not_lt hcl)]
          rfl
      by_cases h1 : 0 < ind.getD c 0
      · rw [if_pos h1]
        obtain ⟨newly, hq, hmem⟩ := ih (q ++ [c]) (ind.set c 0)
        refine ⟨c :: newly, by rw [hq]; simp, ?_⟩
        intro v
        rw [List.mem_cons, hmem v]
        by_cases hvc : v = c
        · subst hvc
          constructor
          · intro _
            exact ⟨List.mem_cons_self v _, h1⟩
          · intro _
            exact Or.inl rfl
        · rw [hdc v hvc]
          constructor
          · rintro (h | ⟨h2, h3⟩)
            · exact absurd h hvc
            · exact ⟨List.mem_cons_of_mem c h2, h3⟩
          · rintro ⟨h2, h3⟩
            rcases List.mem_cons.1 h2 with h2 | h2
            · exact absurd h2 hvc
            · exact Or.inr ⟨h2, h3⟩
      · rw [if_neg h1]
        obtain ⟨newly, hq, hmem⟩ := ih q (ind.set c 0)
        refine ⟨newly, hq, ?_⟩
        intro v
        rw [hmem v]
        by_cases hvc : v = c
        · subst hvc
          rw [hcc]
          constructor
          · rintro ⟨-, h3⟩
            exact absurd h3 (lt_irrefl 0)
          · rintro ⟨-, h3⟩
            exact absurd h3 h1
        · rw [hdc v hvc]
          constructor
          · rintro ⟨h2, h3⟩
            exact ⟨List.mem_cons_of_mem c h2, h3⟩
          · rintro ⟨h2, h3⟩
            rcases List.mem_cons.1 h2 with h2 | h2
            · exact absurd h2 hvc
            · exact ⟨h2, h3⟩

theorem zeroEdges_nonneg (cell : Nat) (es q : List Nat) (ind : List Int)
    (h : ∀ u, 0 ≤ ind.getD u 0) :
    ∀ u, 0 ≤ (zeroEdges cell es q ind).2.getD u 0 := by
  intro u
  rw [zeroEdges_sets]
  split
  · exact le_refl 0
  · exact h u

/-- Chain repair: zeroing the walked prefix of `node` either leaves a
witness chain intact or truncates it at a pushed node. -/
theorem wit_repair {adj : List (List Nat)} {cell node : Nat}
    {ind ind' : List Int} {newly : List Nat}
    (hkeep : ∀ u, u ∉ walkPre adj cell node → ind'.getD u 0 = ind.getD u 0)
    (hpush : ∀ u, u ∈ walkPre adj cell node → 0 < ind.getD u 0 → u ∈ newly) :
    ∀ {x v : Nat}, Wit adj cell ind x v →
      Wit adj cell ind' x v ∨ ∃ w ∈ newly, Wit adj cell ind' w v := by
  intro x v hw
  induction hw with
  | single h1 => exact Or.inl (Wit.single h1)
  | @cons x u v h1 h2 hw' ih =>
    rcases ih with ih | ih
    · by_cases hu : u ∈ walkPre adj cell node
      · exact Or.inr ⟨u, hpush u hu h2, ih⟩
      · exact Or.inl (Wit.cons h1 (by rw [hkeep u hu]; exact h2) ih)
    · exact Or.inr ih

/-- Whenever the revert loop returns, a workspace whose positive entries all
carry witness chains from the queue is drained to all-zero. -/
theorem revertLoop_drain {adj : List (List Nat)} {cell : Nat} :
    ∀ (fuel : Nat) (q : List Nat) (ind ind' : List Int),
      revertLoop adj cell fuel q ind = some ind' →
      (∀ u, 0 ≤ ind.getD u 0) →
      (∀ v, 0 < ind.getD v 0 → ∃ x ∈ q, Wit adj cell ind x v) →
      AllZero ind' := by
  intro fuel
  induction fuel with
  | zero =>
    intro q ind ind' h
    exact absurd h (by simp [revertLoop])
  | succ f ih =>
    intro q ind ind' hrun hnn hwit
    rcases q with _ | ⟨node, rest⟩
    · simp only [revertLoop] at hrun
      obtain rfl := Option.some.inj hrun
      intro v
      by_cases hv : 0 < ind.getD v 0
      · obtain ⟨x, hx, -⟩ := hwit v hv
        exact absurd hx (List.not_mem_nil x)
      · have := hnn v
        omega
    · simp only [revertLoop] at hrun
      obtain ⟨newly, hq1, hchar⟩ := zeroEdges_queue cell (adj.getD node []) rest ind
      have hwpre : walkPre adj cell node =
          (adj.getD node []).takeWhile fun c => c ≠ cell := rfl
      have hkeep : ∀ u, u ∉ walkPre adj cell node →
          (zeroEdges cell (adj.getD node []) rest ind).2.getD u 0 =
            ind.getD u 0 := by
        intro u hu
        rw [zeroEdges_sets, if_neg (by rw [← hwpre]; exact hu)]
      have hpush : ∀ u, u ∈ walkPre adj cell node → 0 < ind.getD u 0 →
          u ∈ newly := by
        intro u hu hpos
        exact (hchar u).2 ⟨by rw [← hwpre]; exact hu, hpos⟩
      refine ih _ _ ind' hrun
        (zeroEdges_nonneg cell (adj.getD node []) rest ind hnn) ?_
      intro v hv
      have hvind : 0 < ind.getD v 0 :=
        zeroEdges_pos cell (adj.getD node []) rest ind v hv
      have hvkeep : v ∉ walkPre adj cell node := by
        intro hvw
        rw [zeroEdges_sets, if_pos (by rw [← hwpre]; exact hvw)] at hv
        exact absurd hv (lt_irrefl 0)
      obtain ⟨x, hxq, hwx⟩ := hwit v hvind
      rcases List.mem_cons.1 hxq with rfl | hxrest
      · cases hwx with
        | single h1 => exact absurd h1 hvkeep
        | @cons x u v h1 h2 hw' =>
          have hun : u ∈ newly := hpush u h1 h2
          rcases wit_repair hkeep hpush hw' with hrep | ⟨w, hwn, hrep⟩
          · exact ⟨u, by rw [hq1]; exact List.mem_append_right rest hun, hrep⟩
          · exact ⟨w, by rw [hq1]; exact List.mem_append_right rest hwn, hrep⟩
      · rcases wit_repair hkeep hpush hwx with hrep | ⟨w, hwn, hrep⟩
        · exact ⟨x, by rw [hq1]; exact List.mem_append_left newly hxrest, hrep⟩
        · exact ⟨w, by rw [hq1]; exact List.mem_append_right rest hwn, hrep⟩

/-- When a cycle through `cell` exists, `topo_sort` reports it with first
element `-1` AND still drains the workspace back to all-zero: the revert
loops re-walk exactly the walked prefixes and zero every incremented
entry. -/
theorem topoSort_cycle_drain {adj : List (List Nat)} {cell : Nat}
    {ind : List Int} {fuel : Nat}
    (hb : ∀ x, ∀ c ∈ adj.getD x [], c < ind.length)
    (hcell : cell < ind.length) (hz : AllZero ind)
    (hfuel : 2 * ind.length + 2 ≤ fuel)
    (hcyc : Relation.TransGen (edgeStep adj) cell cell) :
    ∃ res ind2, topoSort adj cell ind fuel = some (res, ind2) ∧
      res.getD 0 0 = -1 ∧ AllZero ind2 := by
  obtain ⟨q2, ind2, ct2, flag, hrun, hlen2, hnd2, hbnd2, hcase⟩ :=
    phaseA_run hb fuel ∅ [cell] ind 1 (PAInv.paStart hz hcell)
      (by simp) (by simp only [Finset.card_empty]; omega)
  rcases hcase with ⟨hflag, ⟨x, hxr, hxe⟩, hnn2, hwit2⟩ |
    ⟨hflag, hq2, P2, hinv2, hct2, hPR⟩
  · subst hflag
    have hq2len : q2.length ≤ ind.length := nodup_length_le hnd2 hbnd2
    have hlive : (livePos ind2).card ≤ ind.length := by
      have := livePos_card_le ind2
      rwa [hlen2] at this
    obtain ⟨ind3, hrev⟩ := revertLoop_total adj cell fuel (q2 ++ [cell]) ind2
      (by rw [List.length_append]; simp only [List.length_singleton]; omega)
    refine ⟨-1 :: List.replicate (ct2 - 1) 0, ind3, ?_, ?_, ?_⟩
    · simp only [topoSort, hrun, reduceIte]
      rw [hrev]
    · rw [List.getD_cons_zero]
    · refine revertLoop_drain fuel (q2 ++ [cell]) ind2 ind3 hrev hnn2 ?_
      intro v hv
      exact ⟨cell, List.mem_append_right q2 (List.mem_singleton.2 rfl),
        hwit2 v hv⟩
  · exfalso
    obtain ⟨b, hbr, hbe⟩ : ∃ b, Reach adj cell b ∧ edgeStep adj b cell := by
      cases hcyc with
      | single h1 => exact ⟨cell, Relation.ReflTransGen.refl, h1⟩
      | tail h1 h2 => exact ⟨_, h1.to_reflTransGen, h2⟩
    have hbP : b ∈ P2 := (hPR b).2 hbr
    exact hinv2.noCell b hbP hbe

/-- The one-cell adjacency structure with no edges is acyclic from cell 0. -/
theorem acyclicFrom_nilAdj : AcyclicFrom [([] : List Nat)] 0 := by
  intro v _ ht
  have hne : ∀ x y : Nat, ¬ edgeStep [([] : List Nat)] x y := by
    intro x y h
    rw [edgeStep] at h
    rcases x with _ | x <;> simp [List.getD_eq_getElem?_getD] at h
  cases ht with
  | single h => exact hne _ _ h
  | tail h1 h2 => exact hne _ _ h2

/-- C2: for an adjacency structure whose edge targets stay inside the
workspace, acyclic on the nodes reachable from `cell`, and an all-zero
indegree workspace, `topo_sort` returns a vector whose first element is the
number of nodes listed and whose remaining elements list every node reachable
from `cell` (including `cell` itself), each exactly once, in an order where
for every edge x → y between listed nodes, x appears before y (every cell
appears after all cells it reads). -/
theorem topo_order (adj : List (List Nat)) (cell : Nat) (ind : List Int)
    (fuel : Nat)
    (hb : ∀ x, ∀ c ∈ adj.getD x [], c < ind.length)
    (hcell : cell < ind.length) (hz : AllZero ind)
    (hacy : AcyclicFrom adj cell) (hfuel : 2 * ind.length + 2 ≤ fuel) :
    ∃ out ind2,
      topoSort adj cell ind fuel =
        some ((out.length : Int) :: out.map (fun v => (v : Int)), ind2) ∧
      out.Nodup ∧ (∀ v, v ∈ out ↔ Reach adj cell v) ∧
      ∀ x y, x ∈ out → y ∈ out → y ∈ adj.getD x [] →
        List.indexOf x out < List.indexOf y out := by
  obtain ⟨out, ind2, h1, h2, h3, h4, -⟩ := topoSort_acyclic hb hcell hz hacy hfuel
  exact ⟨out, ind2, h1, h2, h3, h4⟩

/-- Witness for `topo_order` on the edgeless one-cell grid. -/
theorem topo_order_witness :
    ∃ out ind2,
      topoSort [[]] 0 [0] 4 =
        some ((out.length : Int) :: out.map (fun v => (v : Int)), ind2) ∧
      out.Nodup ∧ (∀ v, v ∈ out ↔ Reach [[]] 0 v) ∧
      ∀ x y, x ∈ out → y ∈ out → y ∈ ([[]] : List (List Nat)).getD x [] →
        List.indexOf x out < List.indexOf y out :=
  topo_order [[]] 0 [0] 4
    (by
      intro x c hc
      rcases x with _ | x <;> simp [List.getD_eq_getElem?_getD] at hc)
    (by decide)
    (by intro v; rcases v with _ | v <;> rfl)
    acyclicFrom_nilAdj
    (by decide)

/-- C3: for an in-bounds adjacency structure and an all-zero workspace,
`topo_sort` returns, and the first element of its result is `-1` exactly when
a nonempty path of forward edges leads from `cell` back to `cell`; in
particular a self-edge forces `-1`, and `cell_update` rejects (status 0) an
edit that makes a cell read itself (here `cell1 = cell1 + cell1`). -/
theorem cycle_detection (adj : List (List Nat)) (cell : Nat) (ind : List Int)
    (fuel : Nat)
    (hb : ∀ x, ∀ c ∈ adj.getD x [], c < ind.length)
    (hcell : cell < ind.length) (hz : AllZero ind)
    (hfuel : 2 * ind.length + 2 ≤ fuel) :
    (∃ res ind2, topoSort adj cell ind fuel = some (res, ind2) ∧
      (res.getD 0 0 = -1 ↔ Relation.TransGen (edgeStep adj) cell cell) ∧
      (cell ∈ adj.getD cell [] → res.getD 0 0 = -1)) ∧
    (cellUpdate 1 "CCA" 1 1 [0, 0, 0] [[], [], []] [emptyOp, emptyOp, emptyOp] 3
        [0, 0, 0] [false, false, false] 10).map (fun r => r.1) = some 0 := by
  constructor
  · obtain ⟨res, ind2, h1, h2⟩ := topoSort_cycleIff hb hcell hz hfuel
    refine ⟨res, ind2, h1, h2, fun hself => ?_⟩
    exact h2.2 (Relation.TransGen.single (show edgeStep adj cell cell from hself))
  · decide

/-- Witness for `cycle_detection` on the one-cell grid with a self-edge. -/
theorem cycle_detection_witness :
    (∃ res ind2, topoSort [[0]] 0 [0] 4 = some (res, ind2) ∧
      (res.getD 0 0 = -1 ↔ Relation.TransGen (edgeStep [[0]]) 0 0) ∧
      ((0 : Nat) ∈ ([[0]] : List (List Nat)).getD 0 [] → res.getD 0 0 = -1)) ∧
    (cellUpdate 1 "CCA" 1 1 [0, 0, 0] [[], [], []] [emptyOp, emptyOp, emptyOp] 3
        [0, 0, 0] [false, false, false] 10).map (fun r => r.1) = some 0 :=
  cycle_detection [[0]] 0 [0] 4
    (by
      intro x c hc
      rcases x with _ | x
      · have hc0 : c = 0 := by simpa [List.getD_eq_getElem?_getD] using hc
        subst hc0
        decide
      · simp [List.getD_eq_getElem?_getD] at hc)
    (by decide)
    (by intro v; rcases v with _ | v <;> rfl)
    (by decide)

/-- C4 counterexample: on the adjacency structure `[[], [2], [3], [2]]` with
`cell = 1`, the workspace enters all-zero but does NOT return all-zero, even
though no cycle is reported (the cycle `2 → 3 → 2` avoids `cell`, so the Kahn
loop never emits nodes 2 and 3 and their indegree entries stay positive). -/
theorem workspace_drain_cex :
    AllZero [0, 0, 0, 0] ∧
    topoSort [[], [2], [3], [2]] 1 [0, 0, 0, 0] 20 =
      some ([3, 1, 0, 0], [0, 0, 1, 1]) ∧
    ¬ AllZero [0, 0, 1, 1] := by
  refine ⟨?_, by decide, ?_⟩
  · intro v
    rcases v with _ | _ | _ | _ | v <;> rfl
  · intro h
    exact absurd (h 2) (by decide)

/-- C4 (amended): the indegree workspace returns to all-zero on the
cycle-detected path, and on the success path whenever the adjacency
structure is acyclic on the nodes reachable from `cell`; the only failing
case is a success run whose reachable subgraph contains a cycle avoiding
`cell` (see the counterexample), a graph `cell_update` itself never
produces. -/
theorem workspace_drain (adj : List (List Nat)) (cell : Nat) (ind : List Int)
    (fuel : Nat)
    (hb : ∀ x, ∀ c ∈ adj.getD x [], c < ind.length)
    (hcell : cell < ind.length) (hz : AllZero ind)
    (hfuel : 2 * ind.length + 2 ≤ fuel)
    (hok : AcyclicFrom adj cell ∨ Relation.TransGen (edgeStep adj) cell cell) :
    ∃ res ind2, topoSort adj cell ind fuel = some (res, ind2) ∧ AllZero ind2 := by
  rcases hok with hacy | hcyc
  · obtain ⟨out, ind2, h1, -, -, -, h5⟩ := topoSort_acyclic hb hcell hz hacy hfuel
    exact ⟨_, ind2, h1, h5⟩
  · obtain ⟨res, ind2, h1, -, h3⟩ := topoSort_cycle_drain hb hcell hz hfuel hcyc
    exact ⟨res, ind2, h1, h3⟩

/-- Witness for `workspace_drain` on the edgeless one-cell grid. -/
theorem workspace_drain_witness :
    ∃ res ind2, topoSort [[]] 0 [0] 4 = some (res, ind2) ∧ AllZero ind2 :=
  workspace_drain [[]] 0 [0] 4
    (by
      intro x c hc
      rcases x with _ | x <;> simp [List.getD_eq_getElem?_getD] at hc)
    (by decide)
    (by intro v; rcases v with _ | v <;> rfl)
    (by decide)
    (Or.inl acyclicFrom_nilAdj)

end Spreadsheet
